import Mathlib

/-!
MarkDownEdit: the editor commands of `src/main.js`.

A shallow embedding of the class `MarkdownEditor` of `src/main.js`.

* A JavaScript string is the list of its UTF-16 code units, each written as a `Char`.
* The text widget (`this.editor`, a CodeMirror document) is the record `Doc`: its lines and
  the two ends of its one selection.  The widget operations the class calls (`getCursor`,
  `getLine`, `getSelection`, `getValue`, `setValue`, `setCursor`, `replaceRange`,
  `replaceSelection`) are written out after the widget's own algorithms (`clipPos`,
  `splitLines`, `changeEnd`, `adjustForChange`, `updateDoc`, `getBetween`).
* `prompt(message, default)` is a function handed to each command; it answers `none` when the
  dialog is cancelled.  Every call of `prompt`, `showNotification` and `readAsText` is
  recorded, in order, in the list of `Effect`s a command returns.
* The `change` listeners of the widget (`updatePreview`, `updateStats`, `scheduleAutoSave`)
  are embedded as functions of their own.
-/

namespace MarkDownEdit

/-! ## JavaScript strings -/

/-- A JavaScript string: the list of its UTF-16 code units. -/
abbrev JsString := List Char

/-- Truthiness of a value that is a string or `null`: `null` and the empty string are falsy. -/
def truthy : Option JsString → Bool
  | none => false
  | some s => !s.isEmpty

/-- String conversion of `${v}` in a template literal, where `v` is a string or `null`. -/
def toStr : Option JsString → JsString
  | none => "null".toList
  | some s => s

/-- The class `\s` of a regular expression, which is also the set of code units that
`String.prototype.trim` strips (white space and line terminators). -/
def isJsSpace (c : Char) : Bool :=
  let n := c.toNat
  n == 9 || n == 10 || n == 11 || n == 12 || n == 13 || n == 32 || n == 160 || n == 0x1680 ||
    (decide (0x2000 ≤ n) && decide (n ≤ 0x200a)) || n == 0x2028 || n == 0x2029 ||
    n == 0x202f || n == 0x205f || n == 0x3000 || n == 0xfeff

/-- The method `s.startsWith(p)`. -/
def startsWith (s p : JsString) : Bool := p.isPrefixOf s

/-- The method `s.endsWith(p)`. -/
def endsWith (s p : JsString) : Bool := p.isSuffixOf s

/-- The method `s.trim()`. -/
def trim (s : JsString) : JsString := ((s.dropWhile isJsSpace).reverse.dropWhile isJsSpace).reverse

/-- A code unit that ends a line in the widget: line feed or carriage return. -/
def isBreak (c : Char) : Bool := c == '\n' || c == '\r'

/-! ## The text widget -/

/-- A position `{line, ch}` of the widget. -/
structure Pos where
  line : Nat
  ch : Nat
deriving DecidableEq, Repr

/-- The test `cmp(a, b) < 0` on positions. -/
def Pos.lt (a b : Pos) : Bool := decide (a.line < b.line) || (a.line == b.line && decide (a.ch < b.ch))

/-- The test `cmp(a, b) <= 0` on positions. -/
def Pos.le (a b : Pos) : Bool := decide (a.line < b.line) || (a.line == b.line && decide (a.ch ≤ b.ch))

/-- The document of the widget: its lines, and the anchor and head of the selection. -/
structure Doc where
  lines : List JsString
  anchor : Pos
  head : Pos
deriving DecidableEq, Repr

/-- Puts a code unit in front of the first line of a list of lines. -/
def consHead (c : Char) : List JsString → List JsString
  | [] => [[c]]
  | l :: ls => (c :: l) :: ls

/-- The widget's `splitLines`: `string.split(/\r\n?|\n/)`. -/
def splitLines : JsString → List JsString
  | [] => [[]]
  | [c] => if isBreak c then [[], []] else [[c]]
  | c :: d :: ds =>
    if c = '\r' ∧ d = '\n' then [] :: splitLines ds
    else if isBreak c then [] :: splitLines (d :: ds)
    else consHead c (splitLines (d :: ds))

/-- The text of line `n`, the empty text when there is no such line. -/
def lineText (lines : List JsString) (n : Nat) : JsString := lines.getD n []

/-- The widget's `clipPos`: the nearest position that exists in the document. -/
def clipPos (lines : List JsString) (pos : Pos) : Pos :=
  let last := lines.length - 1
  if pos.line > last then ⟨last, (lineText lines last).length⟩
  else if pos.ch > (lineText lines pos.line).length then ⟨pos.line, (lineText lines pos.line).length⟩
  else pos

/-- A change of the widget: the lines `text` replace what stands between `from_` and `to_`. -/
structure Change where
  from_ : Pos
  to_ : Pos
  text : List JsString
deriving DecidableEq, Repr

/-- The widget's `changeEnd`: the position right after the inserted text. -/
def changeEnd (c : Change) : Pos :=
  ⟨c.from_.line + c.text.length - 1,
   (c.text.getLast?.getD []).length + (if c.text.length = 1 then c.from_.ch else 0)⟩

/-- The widget's `adjustForChange`: where a position lands after a change. -/
def adjustForChange (pos : Pos) (c : Change) : Pos :=
  if pos.lt c.from_ then pos
  else if pos.le c.to_ then changeEnd c
  else
    ⟨pos.line + c.text.length - (c.to_.line - c.from_.line) - 1,
     if pos.line = c.to_.line then pos.ch + (changeEnd c).ch - c.to_.ch else pos.ch⟩

/-- Appends `post` to the last line of a list of lines. -/
def appendLast (post : JsString) : List JsString → List JsString
  | [] => [post]
  | [x] => [x ++ post]
  | x :: y :: ys => x :: appendLast post (y :: ys)

/-- The lines that take the place of a changed range: `pre` joined to the first line of the
text and `post` joined to its last line. -/
def spliceText (pre : JsString) (text : List JsString) (post : JsString) : List JsString :=
  match appendLast post text with
  | [] => [pre]
  | x :: xs => (pre ++ x) :: xs

/-- The widget's `updateDoc`: the lines of the document after a change. -/
def updateDoc (lines : List JsString) (c : Change) : List JsString :=
  lines.take c.from_.line ++
    spliceText ((lineText lines c.from_.line).take c.from_.ch) c.text
      ((lineText lines c.to_.line).drop c.to_.ch) ++
    lines.drop (c.to_.line + 1)

/-- The widget's `makeChange`: the lines are updated and both ends of the selection moved. -/
def makeChange (d : Doc) (c : Change) : Doc :=
  { lines := updateDoc d.lines c
    anchor := adjustForChange d.anchor c
    head := adjustForChange d.head c }

/-- The method `getCursor()`: the head of the selection. -/
def Doc.getCursor (d : Doc) : Pos := d.head

/-- The method `getLine(n)`: `none` stands for `undefined`. -/
def Doc.getLine (d : Doc) (n : Nat) : Option JsString := d.lines.get? n

/-- The join `lines.join("\n")` of a list of lines. -/
def joinLines (lines : List JsString) : JsString := [ '\n' ].intercalate lines

/-- The method `getValue()`: the lines joined by line feeds. -/
def Doc.getValue (d : Doc) : JsString := joinLines d.lines

/-- The method `setValue(code)`: the whole document is replaced and the cursor put at its
start. -/
def Doc.setValue (_d : Doc) (code : JsString) : Doc :=
  { lines := splitLines code, anchor := ⟨0, 0⟩, head := ⟨0, 0⟩ }

/-- The start of the selection: the smaller of anchor and head. -/
def Doc.selFrom (d : Doc) : Pos := if d.head.lt d.anchor then d.head else d.anchor

/-- The end of the selection: the larger of anchor and head. -/
def Doc.selTo (d : Doc) : Pos := if d.head.lt d.anchor then d.anchor else d.head

/-- The loop of the widget's `getBetween` over the lines it visits: `n` is the number of the
line being read, cut at `stop.ch` when it is the last line and from `start.ch` when it is the
first. -/
def getBetweenFrom (start stop : Pos) : Nat → List JsString → List JsString
  | _, [] => []
  | n, line :: rest =>
    let text := if n = stop.line then line.take stop.ch else line
    (if n = start.line then text.drop start.ch else text) ::
      getBetweenFrom start stop (n + 1) rest

/-- The widget's `getBetween`: the pieces of the lines from `start` to `stop`. -/
def getBetween (lines : List JsString) (start stop : Pos) : List JsString :=
  getBetweenFrom start stop start.line
    ((lines.drop start.line).take (stop.line + 1 - start.line))

/-- The method `getSelection()`: the selected text, its lines joined by line feeds. -/
def Doc.getSelection (d : Doc) : JsString :=
  joinLines (getBetween d.lines d.selFrom d.selTo)

/-- The method `replaceRange(code, from, to)`; `to_` is `none` when it is not passed. -/
def Doc.replaceRange (d : Doc) (code : JsString) (from_ : Pos) (to_ : Option Pos) : Doc :=
  let f := clipPos d.lines from_
  let t := match to_ with
    | some p => clipPos d.lines p
    | none => f
  if t.lt f then makeChange d ⟨t, f, splitLines code⟩ else makeChange d ⟨f, t, splitLines code⟩

/-- The method `replaceSelection(code)`: the selection is replaced and the cursor left after
the new text. -/
def Doc.replaceSelection (d : Doc) (code : JsString) : Doc :=
  makeChange d ⟨d.selFrom, d.selTo, splitLines code⟩

/-- The method `setCursor(pos)`: an empty selection at the clipped position. -/
def Doc.setCursor (d : Doc) (pos : Pos) : Doc :=
  { d with anchor := clipPos d.lines pos, head := clipPos d.lines pos }

/-- A position that exists in the lines of a document. -/
def validPos (lines : List JsString) (p : Pos) : Bool :=
  decide (p.line < lines.length) && decide (p.ch ≤ (lineText lines p.line).length)

/-- The state the widget keeps: no line holds a line break and both ends of the selection
exist (so there is at least one line). -/
def Doc.valid (d : Doc) : Bool :=
  d.lines.all (fun l => l.all (fun c => !isBreak c)) && validPos d.lines d.anchor &&
    validPos d.lines d.head

/-! ## Heading promotion -/

/-- The match of `/^(#+)\s*/` on a line: `none` for `null`, else the pair of `match[0]` (the
whole match) and `match[1]` (the run of `#`). -/
def matchHeading (line : JsString) : Option (JsString × JsString) :=
  let hashes := line.takeWhile (fun c => c == '#')
  if hashes.isEmpty then none
  else some (hashes ++ (line.dropWhile (fun c => c == '#')).takeWhile isJsSpace, hashes)

/-- The method `insertHeading()` (lines 507-522).  `none` stands for the exception raised
when the cursor line does not exist. -/
def insertHeading (ed : Doc) : Option Doc :=
  let cursor := ed.getCursor
  match ed.getLine cursor.line with
  | none => none
  | some line =>
    if startsWith line "#".toList then
      match matchHeading line with
      | some (m0, m1) =>
        if m1.length < 6 then
          let newLine := List.replicate (m1.length + 1) '#' ++ " ".toList ++ line.drop m0.length
          some (ed.replaceRange newLine ⟨cursor.line, 0⟩ (some ⟨cursor.line, line.length⟩))
        else some ed
      | none => some ed
    else
      some (ed.replaceRange ("# ".toList ++ line) ⟨cursor.line, 0⟩
        (some ⟨cursor.line, line.length⟩))

/-- The method `insertHeading()` called `n` times in a row. -/
def insertHeadingTimes : Nat → Doc → Option Doc
  | 0, ed => some ed
  | n + 1, ed => (insertHeadingTimes n ed).bind insertHeading

/-! ## Prompts, notifications and file reads -/

/-- A file handed over by a drop or by the file picker: its name, its declared type and the
text that reading it yields. -/
structure File where
  name : JsString
  type : JsString
  text : JsString
deriving DecidableEq, Repr

/-- What a command does besides changing the state, in the order of the calls:
`prompt(message, value)` (`value` is `none` when no default is passed),
`this.showNotification(message, type)` and `reader.readAsText(file)`. -/
inductive Effect where
  | prompt (message : JsString) (value : Option JsString)
  | showNotification (message : JsString) (type : JsString)
  | readAsText (file : File)
deriving DecidableEq, Repr

/-- The answer of the user to `prompt(message, value)`: `none` when the dialog is cancelled,
else the submitted text. -/
abbrev Prompt := JsString → Option JsString → Option JsString

/-- Tells whether an effect is a notification of the given type. -/
def Effect.isNotification (type : JsString) : Effect → Bool
  | Effect.showNotification _ t => t == type
  | _ => false

/-- Tells whether an effect is a call of `prompt`. -/
def Effect.isPrompt : Effect → Bool
  | Effect.prompt _ _ => true
  | _ => false

/-! ## Inline styles, links and images -/

/-- The method `formatText(type)` (lines 525-560): the document after the call and the
prompts and notifications issued. -/
def formatText (prompt : Prompt) (type : JsString) (ed : Doc) : Doc × List Effect :=
  let selection := ed.getSelection
  if selection.isEmpty then
    (ed, [Effect.showNotification "请先选择文本".toList "warning".toList])
  else
    let r : JsString × List Effect :=
      if type = "bold".toList then ("**".toList ++ selection ++ "**".toList, [])
      else if type = "italic".toList then ("*".toList ++ selection ++ "*".toList, [])
      else if type = "link".toList then
        let url := prompt "请输入链接URL:".toList (some "https://".toList)
        (if truthy url then "[".toList ++ selection ++ "](".toList ++ toStr url ++ ")".toList
          else [],
         [Effect.prompt "请输入链接URL:".toList (some "https://".toList)])
      else if type = "image".toList then
        let imageUrl := prompt "请输入图片URL:".toList none
        if truthy imageUrl then
          let alt := prompt "请输入图片描述:".toList (some selection)
          ("![".toList ++ toStr alt ++ "](".toList ++ toStr imageUrl ++ ")".toList,
           [Effect.prompt "请输入图片URL:".toList none,
            Effect.prompt "请输入图片描述:".toList (some selection)])
        else ([], [Effect.prompt "请输入图片URL:".toList none])
      else ([], [])
    if r.1.isEmpty then (ed, r.2) else (ed.replaceSelection r.1, r.2)

/-! ## Code fences -/

/-- The method `insertCodeBlock()` (lines 575-585). -/
def insertCodeBlock (prompt : Prompt) (ed : Doc) : Doc × List Effect :=
  let cursor := ed.getCursor
  let language :=
    prompt "请输入编程语言 (例如: javascript, python, html):".toList (some "javascript".toList)
  let codeBlock :=
    if truthy language then "```".toList ++ toStr language ++ "\n\n```".toList
    else "```\n\n```".toList
  let ed1 := ed.replaceRange codeBlock cursor none
  let newCursor : Pos := ⟨cursor.line + 1, 0⟩
  (ed1.setCursor newCursor,
   [Effect.prompt "请输入编程语言 (例如: javascript, python, html):".toList
      (some "javascript".toList)])

/-! ## The link rule -/

/-- The rule `renderer.link(href, title, text)` (lines 140-144); `title` is `none` for
`null`. -/
def renderer.link (href : JsString) (title : Option JsString) (text : JsString) : JsString :=
  let isExternal := startsWith href "http".toList
  let target : JsString :=
    if isExternal then "target=\"_blank\" rel=\"noopener noreferrer\"".toList else []
  "<a href=\"".toList ++ href ++ "\" ".toList ++ target ++ " ".toList ++
    (if truthy title then "title=\"".toList ++ toStr title ++ "\"".toList else []) ++
    ">".toList ++ text ++ "</a>".toList

/-! ## Statistics -/

/-- The fields of the class `MarkdownEditor` that the embedded methods read or write. -/
structure MarkdownEditor where
  editor : Doc
  currentFile : Option JsString
  wordCount : Nat
  charCount : Nat
deriving DecidableEq, Repr

/-- The pieces of `s.split(/\s+/)`, read from left to right: `cur` is the piece being read
and `inRun` tells that the code unit before was white space. -/
def splitSpacesAux : Bool → JsString → JsString → List JsString
  | _, cur, [] => [cur]
  | inRun, cur, c :: cs =>
    if isJsSpace c then
      if inRun then splitSpacesAux true cur cs else cur :: splitSpacesAux true [] cs
    else splitSpacesAux false (cur ++ [c]) cs

/-- The call `s.split(/\s+/)`: the pieces of `s` between its maximal runs of white space (the
empty string gives one empty piece). -/
def splitSpaces (s : JsString) : List JsString := splitSpacesAux false [] s

/-- The method `updateStats()` (lines 212-223); the unused `paragraphs` and the two labels
written to the page are left out. -/
def updateStats (st : MarkdownEditor) : MarkdownEditor :=
  let content := st.editor.getValue
  let words := (splitSpaces (trim content)).filter (fun word => decide (word.length > 0))
  let chars := content.length
  { st with wordCount := words.length, charCount := chars }

/-- The number of maximal runs of non-white-space code units of a text: the number of places
where such a code unit follows white space or starts the text. -/
def countRuns (s : JsString) : Nat :=
  ((' ' :: s).zip s).countP (fun p => isJsSpace p.1 && !isJsSpace p.2)

/-! ## Dropped files -/

/-- The method `handleDrop(event)` (lines 290-309), from the list `event.dataTransfer.files`:
an accepted file is handed to `readAsText`, whose completion runs `handleDrop.onload`. -/
def handleDrop (st : MarkdownEditor) (files : List File) : MarkdownEditor × List Effect :=
  match files with
  | [] => (st, [])
  | file :: _ =>
    if file.type = "text/markdown".toList || endsWith file.name ".md".toList ||
        endsWith file.name ".markdown".toList || endsWith file.name ".txt".toList then
      (st, [Effect.readAsText file])
    else
      (st, [Effect.showNotification "请拖拽 Markdown 文件".toList "error".toList])

/-- The callback `reader.onload` of `handleDrop` (lines 298-303), run when the text of the
file has been read. -/
def handleDrop.onload (st : MarkdownEditor) (file : File) : MarkdownEditor × List Effect :=
  ({ st with editor := st.editor.setValue file.text, currentFile := some file.name },
   [Effect.showNotification ("已打开: ".toList ++ file.name) "success".toList])

/-! ## Files chosen through the picker -/

/-- The method `handleFileSelect(event)` (lines 275-287), from the list `event.target.files`:
the first file, whatever it is, is handed to `readAsText`, whose completion runs
`handleFileSelect.onload`; with no file nothing happens. -/
def handleFileSelect (st : MarkdownEditor) (files : List File) : MarkdownEditor × List Effect :=
  match files with
  | [] => (st, [])
  | file :: _ => (st, [Effect.readAsText file])

/-- The callback `reader.onload` of `handleFileSelect` (lines 280-285), run when the text of
the file has been read. -/
def handleFileSelect.onload (st : MarkdownEditor) (file : File) : MarkdownEditor × List Effect :=
  ({ st with editor := st.editor.setValue file.text, currentFile := some file.name },
   [Effect.showNotification ("已打开: ".toList ++ file.name) "success".toList])

/-- The opening of a file through the picker, from the choice to the end of the read: the
call of `handleFileSelect` and, for each read it starts, the run of its callback. -/
def openThroughPicker (st : MarkdownEditor) (files : List File) : MarkdownEditor × List Effect :=
  let r := handleFileSelect st files
  r.2.foldl
    (fun acc e =>
      match e with
      | Effect.readAsText file =>
        ((handleFileSelect.onload acc.1 file).1, acc.2 ++ e :: (handleFileSelect.onload acc.1 file).2)
      | _ => (acc.1, acc.2 ++ [e]))
    (r.1, [])

/-! ## The preview -/

/-- A list of sibling nodes of the page: empty, or a text node followed by its next siblings,
or an element (its tag in lower case, its classes, its `style.position`, its children)
followed by its next siblings. -/
inductive Dom where
  | nil
  | text (data : JsString) (next : Dom)
  | element (tag : JsString) (classes : List JsString) (position : JsString) (children : Dom)
      (next : Dom)
deriving DecidableEq, Repr

/-- The call `parent.appendChild(node)` on the children of `parent`: the nodes `node` are put
after the last child. -/
def Dom.appendChild : Dom → Dom → Dom
  | Dom.nil, node => node
  | Dom.text data next, node => Dom.text data (next.appendChild node)
  | Dom.element tag classes position children next, node =>
    Dom.element tag classes position children (next.appendChild node)

/-- The test `block.querySelector('.' + c)` being found, on the children of `block`: some
node among them or below them has the class `c`. -/
def Dom.hasClass (c : JsString) : Dom → Bool
  | Dom.nil => false
  | Dom.text _ next => next.hasClass c
  | Dom.element _ classes _ children next =>
    classes.contains c || children.hasClass c || next.hasClass c

/-- The button made by `addCopyButtons` (lines 183-185): its classes and its label. -/
def copyBtn : Dom :=
  Dom.element "button".toList
    ["copy-btn".toList, "absolute".toList, "top-2".toList, "right-2".toList, "px-2".toList,
      "py-1".toList, "text-xs".toList, "bg-gray-200".toList, "dark:bg-gray-700".toList,
      "rounded".toList, "opacity-0".toList, "hover:opacity-100".toList,
      "transition-opacity".toList]
    [] (Dom.text "复制".toList Dom.nil) Dom.nil

/-- The method `addCopyButtons()` (lines 179-209) on the children of the preview element.
`inScope` tells whether the nodes read lie below an element of class `preview-content`, which
is what the selector `.preview-content pre` asks of a `pre`.  Each such `pre` without a node
of class `copy-btn` below it gets `style.position` set and the button appended; the listeners
of the button are left out. -/
def addCopyButtons (inScope : Bool) : Dom → Dom
  | Dom.nil => Dom.nil
  | Dom.text data next => Dom.text data (addCopyButtons inScope next)
  | Dom.element tag classes position children next =>
    let below := addCopyButtons (inScope || classes.contains "preview-content".toList) children
    if tag = "pre".toList ∧ inScope = true ∧ children.hasClass "copy-btn".toList = false then
      Dom.element tag classes "relative".toList (below.appendChild copyBtn)
        (addCopyButtons inScope next)
    else Dom.element tag classes position below (addCopyButtons inScope next)

/-- The text assigned to `innerHTML` when the buffer is blank (lines 163-170). -/
def placeholderHtml : JsString :=
  ("\n                <div class=\"text-gray-500 dark:text-gray-400 text-center mt-8\">" ++
    "\n                    <svg class=\"w-16 h-16 mx-auto mb-4 opacity-50\" fill=\"none\" " ++
    "stroke=\"currentColor\" viewBox=\"0 0 24 24\">" ++
    "\n                        <path stroke-linecap=\"round\" stroke-linejoin=\"round\" " ++
    "stroke-width=\"1\" d=\"M15.232 5.232l3.536 3.536m-2.036-5.036a2.5 2.5 0 113.536 " ++
    "3.536L6.5 21.036H3v-3.572L16.732 3.732z\"></path>" ++
    "\n                    </svg>" ++
    "\n                    <p>开始编写 Markdown 文档，预览将在这里实时显示</p>" ++
    "\n                </div>\n            ").toList

/-- The part of the page that `updatePreview` reads and writes: the text widget, the children
of the element `preview-content` (the render snapshot), and the texts handed to
`marked.parse` so far, oldest first. -/
structure Page where
  editor : Doc
  preview : Dom
  parsed : List JsString
deriving DecidableEq, Repr

/-- The method `updatePreview()` (lines 158-176).  The transformer `marked.parse` and the
reading of a text assigned to `innerHTML` by the browser are the functions `parse` and `html`;
`inScope` tells whether the element `preview-content` is, or lies below, an element of class
`preview-content`. -/
def updatePreview (parse : JsString → JsString) (html : JsString → Dom) (inScope : Bool)
    (p : Page) : Page :=
  let content := p.editor.getValue
  if trim content = [] then
    { p with preview := html placeholderHtml }
  else
    let p1 := { p with preview := html (parse content), parsed := p.parsed ++ [content] }
    { p1 with preview := addCopyButtons inScope p1.preview }

/-! ## The autosave timer -/

/-- The clock and the timers of the page: the time `now` in milliseconds, the identifier the
next `setTimeout` returns, the live timeouts of `scheduleAutoSave` as pairs of identifier and
due time, the field `this.autoSaveTimer`, the times of the calls of `saveToStorage` (oldest
first) and the text of the status label. -/
structure Timers where
  now : Nat
  nextId : Nat
  pending : List (Nat × Nat)
  autoSaveTimer : Option Nat
  saves : List Nat
  saveStatus : JsString
deriving DecidableEq, Repr

/-- The call `clearTimeout(id)`: the timeout with that identifier is removed; `null` and
identifiers of no live timeout change nothing. -/
def clearTimeout (s : Timers) (id : Option Nat) : Timers :=
  match id with
  | none => s
  | some i => { s with pending := s.pending.filter (fun p => p.1 != i) }

/-- The call `setTimeout(callback, delay)` for the autosave callback: a timeout with a fresh
identifier, due `delay` milliseconds from now; the identifier is returned. -/
def setTimeout (s : Timers) (delay : Nat) : Nat × Timers :=
  (s.nextId, { s with nextId := s.nextId + 1, pending := s.pending ++ [(s.nextId, s.now + delay)] })

/-- The method `scheduleAutoSave()` (lines 226-236). -/
def scheduleAutoSave (s : Timers) : Timers :=
  let s1 := clearTimeout s s.autoSaveTimer
  let s2 := { s1 with saveStatus := "未保存".toList }
  let r := setTimeout s2 2000
  { r.2 with autoSaveTimer := some r.1 }

/-- The callback handed to `setTimeout` by `scheduleAutoSave` (lines 231-235): one call of
`saveToStorage`, recorded with its time, and the status label set. -/
def autoSaveCallback (s : Timers) : Timers :=
  { s with saves := s.saves ++ [s.now], saveStatus := "已自动保存".toList }

/-- One millisecond passes: the timeouts that are due are removed and their callbacks run. -/
def tick (s : Timers) : Timers :=
  let s1 := { s with now := s.now + 1 }
  let due := s1.pending.filter (fun p => decide (p.2 ≤ s1.now))
  let s2 := { s1 with pending := s1.pending.filter (fun p => !decide (p.2 ≤ s1.now)) }
  due.foldl (fun acc _ => autoSaveCallback acc) s2

/-- The passing of `d` milliseconds. -/
def advance : Nat → Timers → Timers
  | 0, s => s
  | d + 1, s => advance d (tick s)

/-- The page right after loading: no timeout, no save. -/
def Timers.init : Timers :=
  { now := 0, nextId := 1, pending := [], autoSaveTimer := none, saves := [], saveStatus := [] }

/-- The states of the clock and timers that the page can reach: by buffer changes, each of
which calls `scheduleAutoSave`, and by the passing of time. -/
inductive Reachable : Timers → Prop where
  | init : Reachable Timers.init
  | change (s : Timers) : Reachable s → Reachable (scheduleAutoSave s)
  | tick (s : Timers) : Reachable s → Reachable (tick s)

/-- A run of buffer-change events: one event now, then one more after each of the gaps (in
milliseconds) of the list. -/
def changeEvents (s : Timers) (gaps : List Nat) : Timers :=
  gaps.foldl (fun acc g => scheduleAutoSave (advance g acc)) (scheduleAutoSave s)

/-- The invariant of the timers: at most one timeout is live; it is the one recorded in
`autoSaveTimer` and it is due in the future. -/
def TimersInv (s : Timers) : Prop :=
  s.pending = [] ∨ ∃ id due, s.pending = [(id, due)] ∧ s.autoSaveTimer = some id ∧ s.now < due


/-! ## Lemmas on the text widget -/

theorem consHead_singleton (c : Char) (s : JsString) : consHead c [s] = [c :: s] := rfl

/-- A text without a line break is one line. -/
theorem splitLines_of_noBreak (s : JsString) (h : ∀ c ∈ s, isBreak c = false) :
    splitLines s = [s] := by
  induction s using splitLines.induct with
  | case1 => rfl
  | case2 c hc => simp [h] at hc
  | case3 c _ => simp [splitLines, h]
  | case4 c d ds hcd _ => simp [isBreak, hcd.1] at h
  | case5 c d ds _ hc _ => simp [h] at hc
  | case6 c d ds hcd hc ih =>
    have ih' := ih (fun x hx => h x (List.mem_cons_of_mem _ hx))
    simp [splitLines, hcd, hc, ih', consHead]

/-- A line feed after a text without a line break ends the first line. -/
theorem splitLines_append_lf (a rest : JsString) (h : ∀ c ∈ a, isBreak c = false) :
    splitLines (a ++ '\n' :: rest) = a :: splitLines rest := by
  induction a with
  | nil =>
    cases rest with
    | nil => simp [splitLines, isBreak]
    | cons d ds => simp [splitLines, isBreak]
  | cons x a ih =>
    have hx : isBreak x = false := h x (List.mem_cons_self _ _)
    have hx' : ¬ x = '\r' := by
      rintro rfl
      simp [isBreak] at hx
    have ih' := ih (fun c hc => h c (List.mem_cons_of_mem _ hc))
    cases a with
    | nil =>
      simp only [List.nil_append] at ih' ⊢
      simp [splitLines, hx, hx', ih', consHead]
    | cons y a =>
      simp only [List.cons_append] at ih' ⊢
      simp [splitLines, hx, hx', ih', consHead]

theorem splitLines_ne_nil (s : JsString) : splitLines s ≠ [] := by
  induction s using splitLines.induct with
  | case1 => simp [splitLines]
  | case2 c hc => simp [splitLines, hc]
  | case3 c hc => simp [splitLines, hc]
  | case4 c d ds hcd _ => simp [splitLines, hcd]
  | case5 c d ds hcd hc _ => simp [splitLines, hcd, hc]
  | case6 c d ds hcd hc ih =>
    simp only [splitLines, hcd, hc, if_false, Bool.false_eq_true]
    cases hs : splitLines (d :: ds) with
    | nil => exact absurd hs ih
    | cons x xs => simp [consHead]

theorem lineText_of_getLine {ed : Doc} {n : Nat} {line : JsString}
    (h : ed.getLine n = some line) : lineText ed.lines n = line := by
  simp [Doc.getLine] at h
  simp [lineText, h]

theorem lt_length_of_getLine {ed : Doc} {n : Nat} {line : JsString}
    (h : ed.getLine n = some line) : n < ed.lines.length := by
  simp [Doc.getLine] at h
  exact (List.getElem?_eq_some_iff.mp h).1

theorem clipPos_of_valid (lines : List JsString) (p : Pos) (h : validPos lines p = true) :
    clipPos lines p = p := by
  simp only [validPos, Bool.and_eq_true, decide_eq_true_eq] at h
  simp only [clipPos]
  rw [if_neg (by omega), if_neg (by omega)]

theorem Pos.lt_irrefl (p : Pos) : p.lt p = false := by simp [Pos.lt]

theorem Pos.le_refl (p : Pos) : p.le p = true := by simp [Pos.le]

theorem Pos.sel_order (anchor head : Pos) :
    (if head.lt anchor then head else anchor).line ≤ (if head.lt anchor then anchor else head).line ∧
      ((if head.lt anchor then head else anchor).line =
          (if head.lt anchor then anchor else head).line →
        (if head.lt anchor then head else anchor).ch ≤
          (if head.lt anchor then anchor else head).ch) := by
  by_cases h : head.lt anchor = true
  · rw [if_pos h, if_pos h]
    simp only [Pos.lt, Bool.or_eq_true, decide_eq_true_eq, Bool.and_eq_true, beq_iff_eq] at h
    constructor
    · omega
    · intro _
      omega
  · rw [if_neg h, if_neg h]
    simp only [Pos.lt, Bool.or_eq_true, decide_eq_true_eq, Bool.and_eq_true, beq_iff_eq,
      not_or, not_and, not_lt] at h
    constructor
    · omega
    · intro he
      exact h.2 he.symm

theorem adjustForChange_line (pos : Pos) (n len : Nat) (x : JsString) (h : pos.line = n) :
    (adjustForChange pos ⟨⟨n, 0⟩, ⟨n, len⟩, [x]⟩).line = n := by
  unfold adjustForChange
  split_ifs
  · exact h
  · simp [changeEnd]
  · simp [h]

/-- Replacing a whole line by a text without a line break changes that line alone, and a
cursor on that line stays on it. -/
theorem replaceRange_line (ed : Doc) (n : Nat) (line newLine : JsString)
    (hline : ed.getLine n = some line) (hnew : ∀ c ∈ newLine, isBreak c = false) :
    (ed.replaceRange newLine ⟨n, 0⟩ (some ⟨n, line.length⟩)).lines = ed.lines.set n newLine ∧
      (ed.head.line = n →
        (ed.replaceRange newLine ⟨n, 0⟩ (some ⟨n, line.length⟩)).head.line = n) := by
  have hlt := lt_length_of_getLine hline
  have htext := lineText_of_getLine hline
  have hsplit := splitLines_of_noBreak newLine hnew
  have hc1 : clipPos ed.lines ⟨n, 0⟩ = ⟨n, 0⟩ := by
    simp only [clipPos]
    rw [if_neg (by omega), if_neg (by simp)]
  have hc2 : clipPos ed.lines ⟨n, line.length⟩ = ⟨n, line.length⟩ := by
    simp only [clipPos]
    rw [if_neg (by omega), if_neg (by simp [htext])]
  have hlt2 : Pos.lt ⟨n, line.length⟩ ⟨n, 0⟩ = false := by simp [Pos.lt]
  simp only [Doc.replaceRange, hc1, hc2, hlt2, hsplit, makeChange, updateDoc, htext]
  constructor
  · simp [spliceText, appendLast, List.set_eq_take_append_cons_drop, hlt]
  · intro hh
    exact adjustForChange_line _ _ _ _ hh

/-- A collapsed selection (anchor and head at one position) selects the empty text. -/
theorem getSelection_of_collapsed (ed : Doc) (h : ed.anchor = ed.head) : ed.getSelection = [] := by
  have hf : ed.selFrom = ed.head := by simp [Doc.selFrom, h]
  have ht : ed.selTo = ed.head := by simp [Doc.selTo, h]
  simp only [Doc.getSelection, hf, ht, getBetween]
  have h1 : ed.head.line + 1 - ed.head.line = 1 := by omega
  rw [h1]
  cases hd : List.drop ed.head.line ed.lines with
  | nil => rfl
  | cons x xs => simp [getBetweenFrom, joinLines, List.intercalate]

/-! ## The content of the document around a change -/

theorem joinLines_nil : joinLines [] = [] := rfl

theorem joinLines_singleton (x : JsString) : joinLines [x] = x := by
  simp [joinLines, List.intercalate]

theorem joinLines_cons_cons (x y : JsString) (l : List JsString) :
    joinLines (x :: y :: l) = x ++ '\n' :: joinLines (y :: l) := by
  simp [joinLines, List.intercalate]

theorem joinLines_cons_of_ne_nil (x : JsString) (S : List JsString) (h : S ≠ []) :
    joinLines (x :: S) = x ++ '\n' :: joinLines S := by
  cases S with
  | nil => exact absurd rfl h
  | cons y S => exact joinLines_cons_cons x y S

theorem joinLines_consHead (c : Char) (S : List JsString) (h : S ≠ []) :
    joinLines (consHead c S) = c :: joinLines S := by
  cases S with
  | nil => exact absurd rfl h
  | cons y S =>
    cases S with
    | nil => simp [consHead, joinLines_singleton]
    | cons z S => simp [consHead, joinLines_cons_cons]

/-- Cutting one line in two cuts the joined text at that place. -/
theorem joinLines_mid (A : List JsString) (x m : JsString) (B : List JsString) :
    joinLines (A ++ (x ++ m) :: B) = joinLines (A ++ [x]) ++ joinLines (m :: B) := by
  induction A with
  | nil =>
    cases B with
    | nil => simp [joinLines_singleton]
    | cons b B => simp [joinLines_cons_cons, joinLines_singleton]
  | cons a A ih =>
    cases A with
    | nil =>
      simp only [List.nil_append, List.cons_append] at ih ⊢
      rw [joinLines_cons_cons, joinLines_cons_cons, ih, joinLines_singleton]
      simp
    | cons a' A =>
      simp only [List.cons_append] at ih ⊢
      rw [joinLines_cons_cons, joinLines_cons_cons, ih]
      simp

theorem joinLines_appendLast (post : JsString) (T B : List JsString) (hT : T ≠ []) :
    joinLines (appendLast post T ++ B) = joinLines T ++ joinLines (post :: B) := by
  induction T with
  | nil => exact absurd rfl hT
  | cons t T ih =>
    cases T with
    | nil =>
      simp only [appendLast, List.singleton_append]
      exact joinLines_mid [] t post B
    | cons t' T =>
      have ih' := ih (by simp)
      simp only [appendLast, List.cons_append] at ih' ⊢
      cases hal : appendLast post (t' :: T) with
      | nil =>
        cases T <;> simp [appendLast] at hal
      | cons u U =>
        rw [hal] at ih'
        simp only [List.cons_append] at ih' ⊢
        rw [joinLines_cons_cons, ih', joinLines_cons_cons]
        simp

/-- The joined text after a change: what stood before the change, the joined new text, what
stood after the change. -/
theorem joinLines_splice (A B : List JsString) (pre post : JsString) (text : List JsString)
    (h : text ≠ []) :
    joinLines (A ++ spliceText pre text post ++ B) =
      joinLines (A ++ [pre]) ++ joinLines text ++ joinLines (post :: B) := by
  have hal : appendLast post text ≠ [] := by
    cases text with
    | nil => exact absurd rfl h
    | cons t T => cases T <;> simp [appendLast]
  have hj := joinLines_appendLast post text B h
  cases hr : appendLast post text with
  | nil => exact absurd hr hal
  | cons u U =>
    rw [hr] at hj
    simp only [spliceText, hr, List.append_assoc, List.cons_append]
    rw [joinLines_mid A pre u (U ++ B)]
    simp only [List.cons_append] at hj
    rw [hj]

/-- A text without carriage returns is the join of its lines. -/
theorem joinLines_splitLines (s : JsString) (h : ∀ c ∈ s, c ≠ '\r') :
    joinLines (splitLines s) = s := by
  induction s using splitLines.induct with
  | case1 => rfl
  | case2 c hc =>
    have hc' : c = '\n' := by
      have := h c (List.mem_singleton.mpr rfl)
      simpa [isBreak, this] using hc
    subst hc'
    simp [splitLines, isBreak, joinLines_cons_cons, joinLines_singleton]
  | case3 c hc => simp [splitLines, hc, joinLines_singleton]
  | case4 c d ds hcd _ => exact absurd hcd.1 (h c (List.mem_cons_self _ _))
  | case5 c d ds hcd hc ih =>
    have hc' : c = '\n' := by
      have := h c (List.mem_cons_self _ _)
      simpa [isBreak, this] using hc
    have ih' := ih (fun x hx => h x (List.mem_cons_of_mem _ hx))
    simp only [splitLines, hcd, hc, if_false, if_true]
    rw [joinLines_cons_of_ne_nil _ _ (splitLines_ne_nil _), ih', hc']
    rfl
  | case6 c d ds hcd hc ih =>
    have ih' := ih (fun x hx => h x (List.mem_cons_of_mem _ hx))
    simp only [splitLines, hcd, hc, if_false, Bool.false_eq_true]
    rw [joinLines_consHead _ _ (splitLines_ne_nil _), ih']

theorem mem_joinLines (lines : List JsString) (c : Char) (h : c ∈ joinLines lines) :
    c = '\n' ∨ ∃ l ∈ lines, c ∈ l := by
  induction lines with
  | nil => simp [joinLines_nil] at h
  | cons x xs ih =>
    cases xs with
    | nil =>
      rw [joinLines_singleton] at h
      exact Or.inr ⟨x, List.mem_singleton.mpr rfl, h⟩
    | cons y ys =>
      rw [joinLines_cons_cons] at h
      rcases List.mem_append.mp h with h | h
      · exact Or.inr ⟨x, List.mem_cons_self _ _, h⟩
      · rcases List.mem_cons.mp h with h | h
        · exact Or.inl h
        · rcases ih h with h | ⟨l, hl, hc⟩
          · exact Or.inl h
          · exact Or.inr ⟨l, List.mem_cons_of_mem _ hl, hc⟩

theorem getBetweenFrom_ne_nil (start stop : Pos) (n : Nat) (seg : List JsString) (h : seg ≠ []) :
    getBetweenFrom start stop n seg ≠ [] := by
  cases seg with
  | nil => exact absurd rfl h
  | cons x xs => simp [getBetweenFrom]

/-- Past the first line, putting back the rest of the last line undoes the loop of
`getBetween`. -/
theorem appendLast_getBetweenFrom (start stop : Pos) (T : List JsString) :
    ∀ n, start.line < n → n + T.length = stop.line + 1 → T ≠ [] →
      appendLast ((T.getLast?.getD []).drop stop.ch) (getBetweenFrom start stop n T) = T := by
  induction T with
  | nil =>
    intro n _ _ h
    exact absurd rfl h
  | cons y T ih =>
    intro n hn hlen _
    have hne : ¬ n = start.line := by omega
    cases T with
    | nil =>
      have hstop : n = stop.line := by simpa using hlen
      have hne' : ¬ stop.line = start.line := by omega
      simp [getBetweenFrom, hstop, hne', appendLast]
    | cons z T =>
      have hlen' : n + 1 + (z :: T).length = stop.line + 1 := by
        simp only [List.length_cons] at hlen ⊢
        omega
      have hstop : ¬ n = stop.line := by
        simp only [List.length_cons] at hlen
        omega
      have ih' := ih (n + 1) (by omega) hlen' (by simp)
      have hlast : (y :: z :: T).getLast?.getD [] = (z :: T).getLast?.getD [] := by
        simp [List.getLast?_cons_cons]
      rw [hlast]
      simp only [getBetweenFrom, hne, hstop, if_false] at ih' ⊢
      simp only [appendLast]
      rw [ih']

/-- Putting the selected pieces back between what stands before and after them gives the
lines they were taken from. -/
theorem spliceText_getBetweenFrom (start stop : Pos) (seg : List JsString) (hne : seg ≠ [])
    (hlen : start.line + seg.length = stop.line + 1)
    (hch : start.line = stop.line → start.ch ≤ stop.ch) :
    spliceText ((seg.head?.getD []).take start.ch) (getBetweenFrom start stop start.line seg)
      ((seg.getLast?.getD []).drop stop.ch) = seg := by
  cases seg with
  | nil => exact absurd rfl hne
  | cons x T =>
    cases T with
    | nil =>
      have hline : start.line = stop.line := by simpa using hlen
      have hc := hch hline
      have htake : List.take start.ch x = List.take start.ch (List.take stop.ch x) := by
        rw [List.take_take, Nat.min_eq_left hc]
      simp only [getBetweenFrom, hline, if_true, spliceText, appendLast, List.head?_cons,
        Option.getD_some, List.getLast?_singleton]
      rw [htake, ← List.append_assoc, List.take_append_drop, List.take_append_drop]
    | cons y T =>
      have hstop : ¬ start.line = stop.line := by
        simp only [List.length_cons] at hlen
        omega
      have hlen' : start.line + 1 + (y :: T).length = stop.line + 1 := by
        simp only [List.length_cons] at hlen ⊢
        omega
      have hrec := appendLast_getBetweenFrom start stop (y :: T) (start.line + 1) (by omega) hlen'
        (by simp)
      have hlast : (x :: y :: T).getLast?.getD [] = (y :: T).getLast?.getD [] := by
        simp [List.getLast?_cons_cons]
      rw [hlast]
      simp only [getBetweenFrom, hstop, if_false, if_true, List.head?_cons, Option.getD_some,
        spliceText] at hrec ⊢
      simp only [appendLast, hrec, List.take_append_drop]

/-- Replacing a range by the pieces `getBetween` reads from it leaves the lines as they
are. -/
theorem updateDoc_getBetween (lines : List JsString) (start stop : Pos)
    (hle : start.line ≤ stop.line) (hlt : stop.line < lines.length)
    (hch : start.line = stop.line → start.ch ≤ stop.ch) :
    updateDoc lines ⟨start, stop, getBetween lines start stop⟩ = lines ∧
      getBetween lines start stop ≠ [] := by
  have hseglen : ((lines.drop start.line).take (stop.line + 1 - start.line)).length =
      stop.line + 1 - start.line := by
    rw [List.length_take, List.length_drop]
    omega
  have hne : (lines.drop start.line).take (stop.line + 1 - start.line) ≠ [] := by
    intro h
    rw [h] at hseglen
    simp only [List.length_nil] at hseglen
    omega
  have hhead : ((lines.drop start.line).take (stop.line + 1 - start.line)).head?.getD [] =
      lineText lines start.line := by
    rw [List.head?_take, if_neg (by omega), List.head?_drop]
    simp [lineText]
  have hlast : ((lines.drop start.line).take (stop.line + 1 - start.line)).getLast?.getD [] =
      lineText lines stop.line := by
    rw [List.getLast?_eq_getElem?, hseglen, List.getElem?_take_of_lt (by omega),
      List.getElem?_drop]
    have : start.line + (stop.line + 1 - start.line - 1) = stop.line := by omega
    rw [this]
    simp [lineText]
  have hsplice := spliceText_getBetweenFrom start stop
    ((lines.drop start.line).take (stop.line + 1 - start.line)) hne
    (by rw [hseglen]; omega) hch
  rw [hhead, hlast] at hsplice
  refine ⟨?_, getBetweenFrom_ne_nil _ _ _ _ hne⟩
  simp only [updateDoc, getBetween, hsplice]
  have hdrop : lines.drop (stop.line + 1) =
      (lines.drop start.line).drop (stop.line + 1 - start.line) := by
    rw [List.drop_drop]
    congr 1
    omega
  rw [hdrop, List.append_assoc, List.take_append_drop, List.take_append_drop]

theorem valid_lines (ed : Doc) (h : ed.valid = true) :
    (∀ l ∈ ed.lines, ∀ c ∈ l, isBreak c = false) ∧ validPos ed.lines ed.anchor = true ∧
      validPos ed.lines ed.head = true := by
  simp only [Doc.valid, Bool.and_eq_true, List.all_eq_true, Bool.not_eq_true'] at h
  exact ⟨h.1.1, h.1.2, h.2⟩

/-- The content of a valid document holds no carriage return. -/
theorem getValue_no_cr (ed : Doc) (h : ed.valid = true) : ∀ c ∈ ed.getValue, c ≠ '\r' := by
  intro c hc
  rcases mem_joinLines _ c hc with h1 | ⟨l, hl, hcl⟩
  · rw [h1]
    decide
  · have := (valid_lines ed h).1 l hl c hcl
    rintro rfl
    simp [isBreak] at this

/-- The content around the selection.  In a document whose selection ends exist, the content
is some text `pre`, the selected text, some text `post`; and after `replaceSelection(code)`,
for a `code` without carriage return, the content is `pre`, `code`, `post`. -/
theorem replaceSelection_getValue (ed : Doc)
    (hanchor : validPos ed.lines ed.anchor = true) (hhead : validPos ed.lines ed.head = true) :
    ∃ pre post, ed.getValue = pre ++ ed.getSelection ++ post ∧
      ∀ code : JsString, (∀ c ∈ code, c ≠ '\r') →
        (ed.replaceSelection code).getValue = pre ++ code ++ post := by
  have horder := Pos.sel_order ed.anchor ed.head
  have hlt : ed.selTo.line < ed.lines.length := by
    simp only [validPos, Bool.and_eq_true, decide_eq_true_eq] at hanchor hhead
    simp only [Doc.selTo]
    split_ifs
    · exact hanchor.1
    · exact hhead.1
  obtain ⟨hsame, hbetween⟩ := updateDoc_getBetween ed.lines ed.selFrom ed.selTo horder.1 hlt
    horder.2
  refine ⟨joinLines (ed.lines.take ed.selFrom.line ++
      [(lineText ed.lines ed.selFrom.line).take ed.selFrom.ch]),
    joinLines ((lineText ed.lines ed.selTo.line).drop ed.selTo.ch ::
      ed.lines.drop (ed.selTo.line + 1)), ?_, ?_⟩
  · conv_lhs => rw [Doc.getValue, ← hsame]
    simp only [updateDoc, Doc.getSelection]
    exact joinLines_splice _ _ _ _ _ hbetween
  · intro code hcode
    simp only [Doc.getValue, Doc.replaceSelection, makeChange, updateDoc]
    rw [joinLines_splice _ _ _ _ _ (splitLines_ne_nil code), joinLines_splitLines code hcode]

/-- The content around the selection of a valid document, with the fact that the selected
text holds no carriage return. -/
theorem replaceSelection_content (ed : Doc) (h : ed.valid = true) :
    ∃ pre post, ed.getValue = pre ++ ed.getSelection ++ post ∧
      (∀ c ∈ ed.getSelection, c ≠ '\r') ∧
      ∀ code : JsString, (∀ c ∈ code, c ≠ '\r') →
        (ed.replaceSelection code).getValue = pre ++ code ++ post := by
  obtain ⟨_, hanchor, hhead⟩ := valid_lines ed h
  obtain ⟨pre, post, hval, hrep⟩ := replaceSelection_getValue ed hanchor hhead
  refine ⟨pre, post, hval, fun c hc => ?_, hrep⟩
  apply getValue_no_cr ed h
  rw [hval]
  exact List.mem_append_left _ (List.mem_append_right _ hc)

/-- The content around the cursor.  The content of a document is the text `pre` before the
cursor and the text `post` after it; after `replaceRange(code, cursor)`, for a `code`
without carriage return, the content is `pre`, `code`, `post`. -/
theorem replaceRange_cursor_getValue (ed : Doc) (p : Pos) (hp : validPos ed.lines p = true) :
    ∃ pre post, ed.getValue = pre ++ post ∧
      ∀ code : JsString, (∀ c ∈ code, c ≠ '\r') →
        (ed.replaceRange code p none).getValue = pre ++ code ++ post := by
  have hlt : p.line < ed.lines.length := by
    simp only [validPos, Bool.and_eq_true, decide_eq_true_eq] at hp
    exact hp.1
  obtain ⟨hsame, hbetween⟩ := updateDoc_getBetween ed.lines p p (le_refl _) hlt
    (fun _ => le_refl _)
  have hempty : joinLines (getBetween ed.lines p p) = [] := by
    have := getSelection_of_collapsed ⟨ed.lines, p, p⟩ rfl
    simpa [Doc.getSelection, Doc.selFrom, Doc.selTo, Pos.lt_irrefl] using this
  refine ⟨joinLines (ed.lines.take p.line ++ [(lineText ed.lines p.line).take p.ch]),
    joinLines ((lineText ed.lines p.line).drop p.ch :: ed.lines.drop (p.line + 1)), ?_, ?_⟩
  · conv_lhs => rw [Doc.getValue, ← hsame]
    simp only [updateDoc]
    rw [joinLines_splice _ _ _ _ _ hbetween, hempty, List.append_nil]
  · intro code hcode
    simp only [Doc.getValue, Doc.replaceRange, clipPos_of_valid _ _ hp, Pos.lt_irrefl, makeChange,
      updateDoc]
    rw [if_neg (by simp)]
    simp only []
    rw [joinLines_splice _ _ _ _ _ (splitLines_ne_nil code), joinLines_splitLines code hcode]

/-! ## Heading promotion -/

theorem takeWhile_eq_nil_of_head {p : Char → Bool} (l : JsString)
    (h : ∀ c, l.head? = some c → p c = false) : l.takeWhile p = [] := by
  cases l with
  | nil => rfl
  | cons a l => simp [List.takeWhile_cons, h a]

theorem dropWhile_eq_self_of_head {p : Char → Bool} (l : JsString)
    (h : ∀ c, l.head? = some c → p c = false) : l.dropWhile p = l := by
  cases l with
  | nil => rfl
  | cons a l => simp [List.dropWhile_cons, h a]

theorem isJsSpace_hash : isJsSpace '#' = false := by decide

theorem isJsSpace_blank : isJsSpace ' ' = true := by decide

/-- The match of `/^(#+)\s*/` on a run of `k ≥ 1` hashes, then white space `ws`, then a rest
that starts with neither of them. -/
theorem matchHeading_run (k : Nat) (ws rest : JsString) (hk : 1 ≤ k)
    (hws : ∀ c ∈ ws, isJsSpace c = true)
    (hrest : ∀ c, rest.head? = some c → isJsSpace c = false ∧ (ws = [] → c ≠ '#')) :
    matchHeading (List.replicate k '#' ++ ws ++ rest) =
      some (List.replicate k '#' ++ ws, List.replicate k '#') := by
  have hrun : ∀ a ∈ List.replicate k '#', (fun c => c == '#') a = true := by
    intro a ha
    simp [List.eq_of_mem_replicate ha]
  have hhead : ∀ c, (ws ++ rest).head? = some c → (fun c => c == '#') c = false := by
    intro c hc
    cases ws with
    | nil =>
      simp only [List.nil_append] at hc
      simpa using (hrest c hc).2 rfl
    | cons w ws =>
      simp only [List.cons_append, List.head?_cons, Option.some.injEq] at hc
      subst hc
      have := hws w (List.mem_cons_self _ _)
      simp only [beq_eq_false_iff_ne]
      rintro rfl
      simp [isJsSpace_hash] at this
  have htake : rest.takeWhile isJsSpace = [] :=
    takeWhile_eq_nil_of_head rest (fun c hc => (hrest c hc).1)
  have hne : List.replicate k '#' ≠ [] := by
    intro h
    have := congrArg List.length h
    simp at this
    omega
  simp only [matchHeading, List.append_assoc, List.takeWhile_append_of_pos hrun,
    List.dropWhile_append_of_pos hrun, takeWhile_eq_nil_of_head _ hhead,
    dropWhile_eq_self_of_head _ hhead, List.append_nil, List.takeWhile_append_of_pos hws, htake]
  simp
  omega

theorem startsWith_hash_run (k : Nat) (l : JsString) (hk : 1 ≤ k) :
    startsWith (List.replicate k '#' ++ l) "#".toList = true := by
  obtain ⟨j, rfl⟩ : ∃ j, k = j + 1 := ⟨k - 1, by omega⟩
  simp [startsWith, List.replicate_succ]

theorem insertHeading_run_lt (ed : Doc) (k : Nat) (ws rest : JsString) (hk : 1 ≤ k) (hk6 : k < 6)
    (hline : ed.getLine ed.getCursor.line = some (List.replicate k '#' ++ ws ++ rest))
    (hws : ∀ c ∈ ws, isJsSpace c = true)
    (hrest : ∀ c, rest.head? = some c → isJsSpace c = false ∧ (ws = [] → c ≠ '#')) :
    insertHeading ed = some (ed.replaceRange (List.replicate (k + 1) '#' ++ ' ' :: rest)
      ⟨ed.getCursor.line, 0⟩
      (some ⟨ed.getCursor.line, (List.replicate k '#' ++ ws ++ rest).length⟩)) := by
  have hdrop : List.drop (k + ws.length) (List.replicate k '#' ++ (ws ++ rest)) = rest := by
    rw [← List.append_assoc]
    exact List.drop_left' (by simp)
  simp only [insertHeading, hline, matchHeading_run k ws rest hk hws hrest]
  rw [List.append_assoc, startsWith_hash_run k _ hk]
  simp [hk6, hdrop]

theorem insertHeading_run_ge (ed : Doc) (k : Nat) (ws rest : JsString) (hk6 : 6 ≤ k)
    (hline : ed.getLine ed.getCursor.line = some (List.replicate k '#' ++ ws ++ rest))
    (hws : ∀ c ∈ ws, isJsSpace c = true)
    (hrest : ∀ c, rest.head? = some c → isJsSpace c = false ∧ (ws = [] → c ≠ '#')) :
    insertHeading ed = some ed := by
  simp only [insertHeading, hline, matchHeading_run k ws rest (by omega) hws hrest]
  rw [List.append_assoc, startsWith_hash_run k _ (by omega)]
  simp
  omega

theorem insertHeading_plain_step (ed : Doc) (t : JsString)
    (hline : ed.getLine ed.getCursor.line = some t)
    (ht : ∀ c, t.head? = some c → c ≠ '#') :
    insertHeading ed = some (ed.replaceRange ("# ".toList ++ t) ⟨ed.getCursor.line, 0⟩
      (some ⟨ed.getCursor.line, t.length⟩)) := by
  have hs : startsWith t ['#'] = false := by
    cases t with
    | nil => rfl
    | cons a t =>
      have := ht a rfl
      simp [startsWith, List.isPrefixOf, Ne.symm this]
  simp [insertHeading, hline, hs]

theorem noBreak_heading (k : Nat) (t : JsString) (hbr : ∀ c ∈ t, isBreak c = false) :
    ∀ c ∈ List.replicate k '#' ++ ' ' :: t, isBreak c = false := by
  intro c hc
  rcases List.mem_append.mp hc with h | h
  · rw [List.eq_of_mem_replicate h]
    decide
  · rcases List.mem_cons.mp h with h | h
    · rw [h]
      decide
    · exact hbr c h

theorem getLine_set (ed ed' : Doc) (n : Nat) (line x : JsString)
    (hline : ed.getLine n = some line) (hlines : ed'.lines = ed.lines.set n x) :
    ed'.getLine n = some x := by
  have hlt := lt_length_of_getLine hline
  simp [Doc.getLine, hlines, hlt]

/-- The state after `n ≥ 1` calls on a line `t` that starts with neither `#` nor white
space: the invariant of the iteration. -/
theorem insertHeadingTimes_plain (ed : Doc) (t : JsString)
    (hline : ed.getLine ed.getCursor.line = some t)
    (hbr : ∀ c ∈ t, isBreak c = false)
    (ht : ∀ c, t.head? = some c → c ≠ '#' ∧ isJsSpace c = false) (n : Nat) (hn : 1 ≤ n) :
    ∃ ed', insertHeadingTimes n ed = some ed' ∧
      ed'.lines = ed.lines.set ed.getCursor.line (List.replicate (min n 6) '#' ++ ' ' :: t) ∧
      ed'.getCursor.line = ed.getCursor.line := by
  induction n, hn using Nat.le_induction with
  | base =>
    have hstep := insertHeading_plain_step ed t hline (fun c hc => (ht c hc).1)
    have hr := replaceRange_line ed ed.getCursor.line t _ hline (noBreak_heading 1 t hbr)
    refine ⟨_, ?_, hr.1, hr.2 rfl⟩
    simp only [insertHeadingTimes, Option.some_bind]
    exact hstep
  | succ n hn ih =>
    obtain ⟨ed', hrun, hlines, hcur⟩ := ih
    have hline' : ed'.getLine ed'.getCursor.line =
        some (List.replicate (min n 6) '#' ++ [' '] ++ t) := by
      rw [hcur, List.append_assoc]
      exact getLine_set ed ed' _ t _ hline hlines
    have hws : ∀ c ∈ [' '], isJsSpace c = true := by simp [isJsSpace_blank]
    have hrest : ∀ c, t.head? = some c → isJsSpace c = false ∧ ([' '] = [] → c ≠ '#') :=
      fun c hc => ⟨(ht c hc).2, fun _ => (ht c hc).1⟩
    simp only [insertHeadingTimes, hrun, Option.some_bind]
    by_cases h6 : n < 6
    · have hmin : min n 6 = n := by omega
      have hmin' : min (n + 1) 6 = n + 1 := by omega
      rw [hmin] at hline'
      rw [insertHeading_run_lt ed' n [' '] t hn h6 hline' hws hrest, hmin']
      have hr := replaceRange_line ed' ed'.getCursor.line _ _ hline'
        (noBreak_heading (n + 1) t hbr)
      refine ⟨_, rfl, ?_, ?_⟩
      · rw [hr.1, hlines, hcur, List.set_set]
      · rw [← hcur]
        exact hr.2 rfl
    · have hmin : min n 6 = 6 := by omega
      have hmin' : min (n + 1) 6 = 6 := by omega
      rw [hmin] at hline'
      rw [insertHeading_run_ge ed' 6 [' '] t (le_refl 6) hline' hws hrest, hmin']
      exact ⟨_, rfl, by rw [hlines, hmin], hcur⟩

/-- Claim C1.  On a cursor line `t` that starts with neither `#` nor a white-space character,
`n ≥ 1` calls of `insertHeading` leave that line as `min n 6` hashes, one space, then `t`
(so the first call gives `# ` followed by `t`), every other line as it was, and once six
hashes are reached a further call returns the document unchanged. -/
theorem insertHeading_plain_times (ed : Doc) (t : JsString) (n : Nat)
    (hline : ed.getLine ed.getCursor.line = some t)
    (hbr : ∀ c ∈ t, isBreak c = false)
    (ht : ∀ c, t.head? = some c → c ≠ '#' ∧ isJsSpace c = false) (hn : 1 ≤ n) :
    ∃ ed', insertHeadingTimes n ed = some ed' ∧
      ed'.lines = ed.lines.set ed.getCursor.line (List.replicate (min n 6) '#' ++ ' ' :: t) ∧
      (6 ≤ n → insertHeading ed' = some ed') := by
  obtain ⟨ed', hrun, hlines, hcur⟩ := insertHeadingTimes_plain ed t hline hbr ht n hn
  refine ⟨ed', hrun, hlines, fun h6 => ?_⟩
  have hline' : ed'.getLine ed'.getCursor.line = some (List.replicate 6 '#' ++ [' '] ++ t) := by
    rw [hcur, List.append_assoc]
    have hmin : min n 6 = 6 := by omega
    rw [hmin] at hlines
    exact getLine_set ed ed' _ t _ hline hlines
  exact insertHeading_run_ge ed' 6 [' '] t (le_refl 6) hline' (by simp [isJsSpace_blank])
    (fun c hc => ⟨(ht c hc).2, fun _ => (ht c hc).1⟩)

/-- Witness of C1: three calls on the one-line document `Title`. -/
theorem insertHeading_plain_times_witness :
    ∃ ed', insertHeadingTimes 3 ⟨["Title".toList], ⟨0, 0⟩, ⟨0, 0⟩⟩ = some ed' ∧
      ed'.lines = ["### Title".toList] ∧ (6 ≤ 3 → insertHeading ed' = some ed') :=
  insertHeading_plain_times ⟨["Title".toList], ⟨0, 0⟩, ⟨0, 0⟩⟩ "Title".toList 3 rfl
    (by decide) (by intro c hc; cases hc; decide) (by decide)

/-- Claim C8, as the code has it.  On a cursor line made of `k ≥ 1` hashes, a run `ws` of
white space (possibly empty) and a rest that starts with no white space: for `k ≤ 5`,
`insertHeading` puts `k + 1` hashes and exactly one space in the place of the hashes and of
`ws`, keeps the rest verbatim and leaves every other line alone, so that the new line is `#`
followed by the old line exactly when `ws` is one single space; for `k ≥ 6` the document is
unchanged. -/
theorem insertHeading_promote (ed : Doc) (k : Nat) (ws rest : JsString)
    (hline : ed.getLine ed.getCursor.line = some (List.replicate k '#' ++ ws ++ rest))
    (hbr : ∀ c ∈ rest, isBreak c = false)
    (hws : ∀ c ∈ ws, isJsSpace c = true)
    (hrest : ∀ c, rest.head? = some c → isJsSpace c = false ∧ (ws = [] → c ≠ '#'))
    (hk : 1 ≤ k) :
    (k ≤ 5 → ∃ ed', insertHeading ed = some ed' ∧
      ed'.lines = ed.lines.set ed.getCursor.line (List.replicate (k + 1) '#' ++ ' ' :: rest) ∧
      (ed'.getLine ed.getCursor.line = some ('#' :: (List.replicate k '#' ++ ws ++ rest)) ↔
        ws = [' '])) ∧
    (6 ≤ k → insertHeading ed = some ed) := by
  refine ⟨fun h5 => ?_, fun h6 => insertHeading_run_ge ed k ws rest h6 hline hws hrest⟩
  have hr := replaceRange_line ed ed.getCursor.line _ _ hline (noBreak_heading (k + 1) rest hbr)
  refine ⟨_, insertHeading_run_lt ed k ws rest hk (by omega) hline hws hrest, hr.1, ?_⟩
  rw [getLine_set ed _ _ _ _ hline hr.1]
  simp only [Option.some.injEq, List.replicate_succ, List.cons_append, List.cons.injEq, true_and,
    List.append_assoc, List.append_cancel_left_eq]
  constructor
  · intro h
    have hlen := congrArg List.length h
    simp only [List.length_cons, List.length_append] at hlen
    obtain ⟨w, rfl⟩ := List.length_eq_one.mp (show ws.length = 1 by omega)
    simp only [List.singleton_append, List.cons.injEq] at h
    rw [h.1]
  · rintro rfl
    rfl

/-- Witness of C8: the line `#   Title`, one hash followed by three spaces. -/
theorem insertHeading_promote_witness :
    (1 ≤ 5 → ∃ ed', insertHeading ⟨["#   Title".toList], ⟨0, 0⟩, ⟨0, 0⟩⟩ = some ed' ∧
      ed'.lines = ["## Title".toList] ∧
      (ed'.getLine 0 = some ("##   Title".toList) ↔ "   ".toList = [' '])) ∧
    (6 ≤ 1 → insertHeading ⟨["#   Title".toList], ⟨0, 0⟩, ⟨0, 0⟩⟩ =
      some ⟨["#   Title".toList], ⟨0, 0⟩, ⟨0, 0⟩⟩) :=
  insertHeading_promote ⟨["#   Title".toList], ⟨0, 0⟩, ⟨0, 0⟩⟩ 1 "   ".toList "Title".toList rfl
    (by decide) (by decide) (by intro c hc; cases hc; decide) (by decide)

/-- Counterexample to C8 as stated: on the line `#Title` (one hash, no white space after it)
the new line is `## Title`, which is not `#` followed by the old line; and on `#  Title` the
two spaces after the run become one. -/
theorem insertHeading_promote_counterexample :
    (insertHeading ⟨["#Title".toList], ⟨0, 0⟩, ⟨0, 0⟩⟩ =
        some ⟨["## Title".toList], ⟨0, 8⟩, ⟨0, 8⟩⟩ ∧
      "## Title".toList ≠ '#' :: "#Title".toList) ∧
    (insertHeading ⟨["#  Title".toList], ⟨0, 0⟩, ⟨0, 0⟩⟩ =
        some ⟨["## Title".toList], ⟨0, 8⟩, ⟨0, 8⟩⟩ ∧
      "## Title".toList ≠ '#' :: "#  Title".toList) := by
  decide

/-! ## Code fences -/

/-- The lines of the fence text: the open fence with its tag, one empty line, the close
fence. -/
theorem splitLines_fence (g : JsString) (hg : ∀ c ∈ g, isBreak c = false) :
    splitLines ("```".toList ++ g ++ "\n\n```".toList) = ["```".toList ++ g, [], "```".toList] := by
  have h1 : ∀ c ∈ "```".toList ++ g, isBreak c = false := by
    intro c hc
    rcases List.mem_append.mp hc with h | h
    · have hb : ∀ x ∈ "```".toList, isBreak x = false := by decide
      exact hb c h
    · exact hg c h
  have h2 : "\n\n```".toList = '\n' :: ([] ++ '\n' :: "```".toList) := rfl
  rw [h2, splitLines_append_lf _ _ h1, splitLines_append_lf [] _ (by simp)]
  rfl

/-- The code block is the fence text around the answer, whatever the answer is. -/
theorem codeBlock_eq (language : Option JsString) (g : JsString) (h : language = some g) :
    (if truthy language then "```".toList ++ toStr language ++ "\n\n```".toList
      else "```\n\n```".toList) = "```".toList ++ g ++ "\n\n```".toList := by
  subst h
  cases g with
  | nil => rfl
  | cons a g => simp [truthy, toStr]

/-- The document after the fence text around `g` is inserted at an existing cursor `(L, c)`
and the cursor is set to line `L + 1`, column `0`. -/
theorem fence_layout (ed : Doc) (g : JsString)
    (hvalid : validPos ed.lines ed.getCursor = true) (hg : ∀ c ∈ g, isBreak c = false) :
    ((ed.replaceRange ("```".toList ++ g ++ "\n\n```".toList) ed.getCursor none).setCursor
        ⟨ed.getCursor.line + 1, 0⟩).lines =
        ed.lines.take ed.getCursor.line ++
          [(lineText ed.lines ed.getCursor.line).take ed.getCursor.ch ++ "```".toList ++ g, [],
            "```".toList ++ (lineText ed.lines ed.getCursor.line).drop ed.getCursor.ch] ++
          ed.lines.drop (ed.getCursor.line + 1) ∧
      ((ed.replaceRange ("```".toList ++ g ++ "\n\n```".toList) ed.getCursor none).setCursor
        ⟨ed.getCursor.line + 1, 0⟩).head = ⟨ed.getCursor.line + 1, 0⟩ ∧
      ((ed.replaceRange ("```".toList ++ g ++ "\n\n```".toList) ed.getCursor none).setCursor
        ⟨ed.getCursor.line + 1, 0⟩).anchor = ⟨ed.getCursor.line + 1, 0⟩ ∧
      ((ed.replaceRange ("```".toList ++ g ++ "\n\n```".toList) ed.getCursor none).setCursor
        ⟨ed.getCursor.line + 1, 0⟩).getLine (ed.getCursor.line + 1) = some [] ∧
      (∃ pre post, ed.getValue = pre ++ post ∧
        ((ed.replaceRange ("```".toList ++ g ++ "\n\n```".toList) ed.getCursor none).setCursor
          ⟨ed.getCursor.line + 1, 0⟩).getValue =
          pre ++ ("```".toList ++ g ++ "\n\n```".toList) ++ post) := by
  have hlt : ed.getCursor.line < ed.lines.length := by
    simp only [validPos, Bool.and_eq_true, decide_eq_true_eq] at hvalid
    exact hvalid.1
  have hlines : (ed.replaceRange ("```".toList ++ g ++ "\n\n```".toList) ed.getCursor none).lines =
      ed.lines.take ed.getCursor.line ++
          [(lineText ed.lines ed.getCursor.line).take ed.getCursor.ch ++ "```".toList ++ g, [],
            "```".toList ++ (lineText ed.lines ed.getCursor.line).drop ed.getCursor.ch] ++
          ed.lines.drop (ed.getCursor.line + 1) := by
    simp only [Doc.replaceRange, clipPos_of_valid _ _ hvalid, Pos.lt_irrefl, makeChange,
      updateDoc, splitLines_fence g hg]
    simp [spliceText, appendLast]
  have hclip : clipPos (ed.replaceRange ("```".toList ++ g ++ "\n\n```".toList) ed.getCursor
      none).lines ⟨ed.getCursor.line + 1, 0⟩ = ⟨ed.getCursor.line + 1, 0⟩ := by
    simp only [clipPos, hlines]
    rw [if_neg (by simp; omega), if_neg (by simp)]
  refine ⟨hlines, ?_, ?_, ?_, ?_⟩
  · simp only [Doc.setCursor, hclip]
  · simp only [Doc.setCursor, hclip]
  · simp only [Doc.setCursor, Doc.getLine, hlines, List.get?_eq_getElem?]
    rw [List.append_assoc, List.getElem?_append_right (by simp)]
    simp [List.length_take, Nat.min_eq_left (Nat.le_of_lt hlt)]
  · obtain ⟨pre, post, hval, hrep⟩ := replaceRange_cursor_getValue ed ed.getCursor hvalid
    refine ⟨pre, post, hval, ?_⟩
    have hcr : ∀ c ∈ "```".toList ++ g ++ "\n\n```".toList, c ≠ '\r' := by
      intro c hc
      rcases List.mem_append.mp hc with h | h
      · rcases List.mem_append.mp h with h | h
        · have hb : ∀ x ∈ "```".toList, x ≠ '\r' := by decide
          exact hb c h
        · have := hg c h
          rintro rfl
          simp [isBreak] at this
      · have hb : ∀ x ∈ "\n\n```".toList, x ≠ '\r' := by decide
        exact hb c h
    exact hrep _ hcr

/-- Claim C2.  When the prompt answers a tag `g` without a line break (the empty tag
included) and the cursor `(L, c)` exists in the document, `insertCodeBlock` inserts at the
cursor exactly the fence text (three backticks and `g`, two line feeds, three backticks):
line `L` is cut at `c`, its left part is followed by the open fence, line `L + 1` is empty,
line `L + 2` is the close fence followed by the right part, every other line is kept, and
the cursor is left at line `L + 1`, column `0`; one prompt is issued.  The content, which is
some `pre` followed by some `post`, becomes `pre`, the fence text, `post`. -/
theorem insertCodeBlock_fence (prompt : Prompt) (ed : Doc) (g : JsString)
    (hvalid : validPos ed.lines ed.getCursor = true)
    (hanswer : prompt "请输入编程语言 (例如: javascript, python, html):".toList
      (some "javascript".toList) = some g)
    (hg : ∀ c ∈ g, isBreak c = false) :
    (insertCodeBlock prompt ed).1 =
        (ed.replaceRange ("```".toList ++ g ++ "\n\n```".toList) ed.getCursor none).setCursor
          ⟨ed.getCursor.line + 1, 0⟩ ∧
      (insertCodeBlock prompt ed).1.lines =
        ed.lines.take ed.getCursor.line ++
          [(lineText ed.lines ed.getCursor.line).take ed.getCursor.ch ++ "```".toList ++ g, [],
            "```".toList ++ (lineText ed.lines ed.getCursor.line).drop ed.getCursor.ch] ++
          ed.lines.drop (ed.getCursor.line + 1) ∧
      (insertCodeBlock prompt ed).1.head = ⟨ed.getCursor.line + 1, 0⟩ ∧
      (insertCodeBlock prompt ed).1.anchor = ⟨ed.getCursor.line + 1, 0⟩ ∧
      (insertCodeBlock prompt ed).1.getLine (ed.getCursor.line + 1) = some [] ∧
      (insertCodeBlock prompt ed).2 =
        [Effect.prompt "请输入编程语言 (例如: javascript, python, html):".toList
          (some "javascript".toList)] ∧
      (∃ pre post, ed.getValue = pre ++ post ∧
        (insertCodeBlock prompt ed).1.getValue =
          pre ++ ("```".toList ++ g ++ "\n\n```".toList) ++ post) := by
  have h1 : (insertCodeBlock prompt ed).1 =
      (ed.replaceRange ("```".toList ++ g ++ "\n\n```".toList) ed.getCursor none).setCursor
        ⟨ed.getCursor.line + 1, 0⟩ := by
    simp only [insertCodeBlock, codeBlock_eq _ g hanswer]
  obtain ⟨hlines, hhead, hanchor, hline, hcontent⟩ := fence_layout ed g hvalid hg
  rw [h1]
  exact ⟨rfl, hlines, hhead, hanchor, hline, rfl, hcontent⟩

/-- Witness of C2: the tag `python` at line 0, column 4 of the lines `abc def` and `ghi`. -/
theorem insertCodeBlock_fence_witness :
    (insertCodeBlock (fun _ _ => some "python".toList)
        ⟨["abc def".toList, "ghi".toList], ⟨0, 4⟩, ⟨0, 4⟩⟩).1.lines =
      ["abc ```python".toList, [], "```def".toList, "ghi".toList] ∧
    (insertCodeBlock (fun _ _ => some "python".toList)
        ⟨["abc def".toList, "ghi".toList], ⟨0, 4⟩, ⟨0, 4⟩⟩).1.head = ⟨1, 0⟩ :=
  have h := insertCodeBlock_fence (fun _ _ => some "python".toList)
    ⟨["abc def".toList, "ghi".toList], ⟨0, 4⟩, ⟨0, 4⟩⟩ "python".toList (by decide) rfl (by decide)
  ⟨h.2.1, h.2.2.1⟩

/-! ## Inline styles, links and images -/

theorem isEmpty_eq_false_of_ne {s : JsString} (h : s ≠ []) : s.isEmpty = false := by
  cases s with
  | nil => exact absurd rfl h
  | cons a s => rfl

theorem truthy_some_of_ne {u : JsString} (h : u ≠ []) : truthy (some u) = true := by
  simp [truthy, isEmpty_eq_false_of_ne h]

/-- Claim C3.  With an empty selection, `formatText` of any type returns the document as it
was and does nothing but show the notification of type `warning`: no prompt is issued. -/
theorem formatText_empty_selection (prompt : Prompt) (type : JsString) (ed : Doc)
    (h : ed.getSelection = []) :
    formatText prompt type ed =
        (ed, [Effect.showNotification "请先选择文本".toList "warning".toList]) ∧
      (formatText prompt type ed).1 = ed ∧
      (formatText prompt type ed).2.any Effect.isPrompt = false ∧
      (formatText prompt type ed).2.any (Effect.isNotification "warning".toList) = true := by
  have h0 : formatText prompt type ed =
      (ed, [Effect.showNotification "请先选择文本".toList "warning".toList]) := by
    simp [formatText, h]
  rw [h0]
  exact ⟨rfl, rfl, rfl, by simp [Effect.isNotification]⟩

/-- Witness of C3: the command `bold` with the cursor in the line `abc` and nothing
selected. -/
theorem formatText_empty_selection_witness :
    formatText (fun _ _ => some "x".toList) "bold".toList ⟨["abc".toList], ⟨0, 1⟩, ⟨0, 1⟩⟩ =
        (⟨["abc".toList], ⟨0, 1⟩, ⟨0, 1⟩⟩,
          [Effect.showNotification "请先选择文本".toList "warning".toList]) :=
  (formatText_empty_selection (fun _ _ => some "x".toList) "bold".toList
    ⟨["abc".toList], ⟨0, 1⟩, ⟨0, 1⟩⟩ (getSelection_of_collapsed _ rfl)).1

/-- The result of `formatText` for `bold`, `italic` and `link` with a non-empty selection, in
terms of `replaceSelection`. -/
theorem formatText_style_link_eq (prompt : Prompt) (ed : Doc) (hs : ed.getSelection ≠ []) :
    formatText prompt "bold".toList ed =
        (ed.replaceSelection ("**".toList ++ ed.getSelection ++ "**".toList), []) ∧
      formatText prompt "italic".toList ed =
        (ed.replaceSelection ("*".toList ++ ed.getSelection ++ "*".toList), []) ∧
      (∀ u, prompt "请输入链接URL:".toList (some "https://".toList) = some u → u ≠ [] →
        formatText prompt "link".toList ed =
          (ed.replaceSelection ("[".toList ++ ed.getSelection ++ "](".toList ++ u ++ ")".toList),
            [Effect.prompt "请输入链接URL:".toList (some "https://".toList)])) ∧
      (prompt "请输入链接URL:".toList (some "https://".toList) = some [] ∨
          prompt "请输入链接URL:".toList (some "https://".toList) = none →
        formatText prompt "link".toList ed =
          (ed, [Effect.prompt "请输入链接URL:".toList (some "https://".toList)])) := by
  have he := isEmpty_eq_false_of_ne hs
  refine ⟨?_, ?_, ?_, ?_⟩
  · simp [formatText, he]
  · have hne : ¬ "italic".toList = "bold".toList := by decide
    simp [formatText, he, hne]
  · intro u hu hne
    have h1 : ¬ "link".toList = "bold".toList := by decide
    have h2 : ¬ "link".toList = "italic".toList := by decide
    have h3 : ("[".toList ++ ed.getSelection ++ "](".toList ++ u ++ ")".toList).isEmpty = false :=
      rfl
    simp only [formatText, he, if_neg h1, if_neg h2, hu, truthy_some_of_ne hne, toStr, if_true,
      Bool.false_eq_true, if_false, h3]
  · intro hu
    have h1 : ¬ "link".toList = "bold".toList := by decide
    have h2 : ¬ "link".toList = "italic".toList := by decide
    rcases hu with hu | hu <;>
      simp only [formatText, he, if_neg h1, if_neg h2, hu, truthy, if_true,
        Bool.false_eq_true, if_false, List.isEmpty_nil, Bool.not_true]

theorem noCr_append {a b : JsString} (ha : ∀ c ∈ a, c ≠ '\r') (hb : ∀ c ∈ b, c ≠ '\r') :
    ∀ c ∈ a ++ b, c ≠ '\r' := by
  intro c hc
  rcases List.mem_append.mp hc with h | h
  · exact ha c h
  · exact hb c h

/-- Claim C9.  With a non-empty selection `s`: `bold` replaces the selection by `s` between
two pairs of asterisks and `italic` by `s` between two asterisks, without any prompt; `link`
asks for the URL once and, for a non-empty answer `u`, replaces the selection by `s` in square
brackets followed by `u` in round brackets; for an empty or cancelled answer the document is
returned as it was and nothing but the prompt has happened (no notification).  In a valid
document the content, which is some `pre`, then `s`, then some `post`, becomes `pre`, the new
text, `post` (for `link`, when `u` holds no carriage return). -/
theorem formatText_style_link (prompt : Prompt) (ed : Doc) (hs : ed.getSelection ≠ []) :
    formatText prompt "bold".toList ed =
        (ed.replaceSelection ("**".toList ++ ed.getSelection ++ "**".toList), []) ∧
      formatText prompt "italic".toList ed =
        (ed.replaceSelection ("*".toList ++ ed.getSelection ++ "*".toList), []) ∧
      (∀ u, prompt "请输入链接URL:".toList (some "https://".toList) = some u → u ≠ [] →
        formatText prompt "link".toList ed =
          (ed.replaceSelection ("[".toList ++ ed.getSelection ++ "](".toList ++ u ++ ")".toList),
            [Effect.prompt "请输入链接URL:".toList (some "https://".toList)])) ∧
      (prompt "请输入链接URL:".toList (some "https://".toList) = some [] ∨
          prompt "请输入链接URL:".toList (some "https://".toList) = none →
        formatText prompt "link".toList ed =
          (ed, [Effect.prompt "请输入链接URL:".toList (some "https://".toList)])) ∧
      (ed.valid = true → ∃ pre post, ed.getValue = pre ++ ed.getSelection ++ post ∧
        (formatText prompt "bold".toList ed).1.getValue =
          pre ++ ("**".toList ++ ed.getSelection ++ "**".toList) ++ post ∧
        (formatText prompt "italic".toList ed).1.getValue =
          pre ++ ("*".toList ++ ed.getSelection ++ "*".toList) ++ post ∧
        (∀ u, prompt "请输入链接URL:".toList (some "https://".toList) = some u → u ≠ [] →
          (∀ c ∈ u, c ≠ '\r') →
          (formatText prompt "link".toList ed).1.getValue =
            pre ++ ("[".toList ++ ed.getSelection ++ "](".toList ++ u ++ ")".toList) ++ post)) := by
  obtain ⟨hbold, hitalic, hlink, hnone⟩ := formatText_style_link_eq prompt ed hs
  refine ⟨hbold, hitalic, hlink, hnone, fun hvalid => ?_⟩
  obtain ⟨pre, post, hval, hsel, hrep⟩ := replaceSelection_content ed hvalid
  have hlit : ∀ l : JsString, (l.all fun c => c != '\r') = true → ∀ c ∈ l, c ≠ '\r' := by
    intro l hl c hc
    simpa using List.all_eq_true.mp hl c hc
  refine ⟨pre, post, hval, ?_, ?_, ?_⟩
  · rw [hbold]
    exact hrep _ (noCr_append (noCr_append (hlit _ (by decide)) hsel) (hlit _ (by decide)))
  · rw [hitalic]
    exact hrep _ (noCr_append (noCr_append (hlit _ (by decide)) hsel) (hlit _ (by decide)))
  · intro u hu hne hcr
    rw [hlink u hu hne]
    exact hrep _ (noCr_append (noCr_append (noCr_append (noCr_append (hlit _ (by decide)) hsel)
      (hlit _ (by decide))) hcr) (hlit _ (by decide)))

/-- Witness of C9: the word `def` selected in the line `abc def`. -/
theorem formatText_style_link_witness :
    formatText (fun _ _ => some "u".toList) "bold".toList
        ⟨["abc def".toList], ⟨0, 4⟩, ⟨0, 7⟩⟩ =
      (⟨["abc **def**".toList], ⟨0, 11⟩, ⟨0, 11⟩⟩, []) :=
  (formatText_style_link (fun _ _ => some "u".toList) ⟨["abc def".toList], ⟨0, 4⟩, ⟨0, 7⟩⟩
    (by decide)).1

/-- The result of `formatText` for `image` with a non-empty selection, in terms of
`replaceSelection`. -/
theorem formatText_image_eq (prompt : Prompt) (ed : Doc) (hs : ed.getSelection ≠ []) :
    (∀ u a, prompt "请输入图片URL:".toList none = some u → u ≠ [] →
        prompt "请输入图片描述:".toList (some ed.getSelection) = some a →
        formatText prompt "image".toList ed =
          (ed.replaceSelection ("![".toList ++ a ++ "](".toList ++ u ++ ")".toList),
            [Effect.prompt "请输入图片URL:".toList none,
              Effect.prompt "请输入图片描述:".toList (some ed.getSelection)])) ∧
      (prompt "请输入图片URL:".toList none = some [] ∨
          prompt "请输入图片URL:".toList none = none →
        formatText prompt "image".toList ed =
          (ed, [Effect.prompt "请输入图片URL:".toList none])) := by
  have he := isEmpty_eq_false_of_ne hs
  have h1 : ¬ "image".toList = "bold".toList := by decide
  have h2 : ¬ "image".toList = "italic".toList := by decide
  have h3 : ¬ "image".toList = "link".toList := by decide
  refine ⟨?_, ?_⟩
  · intro u a hu hne ha
    have h4 : ("![".toList ++ a ++ "](".toList ++ u ++ ")".toList).isEmpty = false := rfl
    simp only [formatText, he, if_neg h1, if_neg h2, if_neg h3, hu, ha, truthy_some_of_ne hne,
      toStr, if_true, Bool.false_eq_true, if_false, h4]
  · intro hu
    rcases hu with hu | hu <;>
      simp only [formatText, he, if_neg h1, if_neg h2, if_neg h3, hu, truthy, if_true,
        Bool.false_eq_true, if_false, List.isEmpty_nil, Bool.not_true]

/-- Claim C10, as the code has it.  With a non-empty selection `s`, `image` asks for the URL
with no default; for a non-empty answer `u` it asks for the description with `s` as the
default, and for an answer `a` to that second prompt it replaces the selection by an
exclamation mark, `a` in square brackets and `u` in round brackets (`a` is `s` when the
default is submitted as it stands, and is empty when an empty text is submitted); for an
empty or cancelled URL the document is returned as it was after that one prompt.  In a valid
document the content, which is some `pre`, then `s`, then some `post`, becomes `pre`, the new
text, `post` (when `u` and `a` hold no carriage return). -/
theorem formatText_image (prompt : Prompt) (ed : Doc) (hs : ed.getSelection ≠ []) :
    (∀ u a, prompt "请输入图片URL:".toList none = some u → u ≠ [] →
        prompt "请输入图片描述:".toList (some ed.getSelection) = some a →
        formatText prompt "image".toList ed =
          (ed.replaceSelection ("![".toList ++ a ++ "](".toList ++ u ++ ")".toList),
            [Effect.prompt "请输入图片URL:".toList none,
              Effect.prompt "请输入图片描述:".toList (some ed.getSelection)])) ∧
      (prompt "请输入图片URL:".toList none = some [] ∨
          prompt "请输入图片URL:".toList none = none →
        formatText prompt "image".toList ed =
          (ed, [Effect.prompt "请输入图片URL:".toList none])) ∧
      (ed.valid = true → ∃ pre post, ed.getValue = pre ++ ed.getSelection ++ post ∧
        ∀ u a, prompt "请输入图片URL:".toList none = some u → u ≠ [] →
          prompt "请输入图片描述:".toList (some ed.getSelection) = some a →
          (∀ c ∈ u, c ≠ '\r') → (∀ c ∈ a, c ≠ '\r') →
          (formatText prompt "image".toList ed).1.getValue =
            pre ++ ("![".toList ++ a ++ "](".toList ++ u ++ ")".toList) ++ post) := by
  obtain ⟨himage, hnone⟩ := formatText_image_eq prompt ed hs
  refine ⟨himage, hnone, fun hvalid => ?_⟩
  obtain ⟨pre, post, hval, _, hrep⟩ := replaceSelection_content ed hvalid
  have hlit : ∀ l : JsString, (l.all fun c => c != '\r') = true → ∀ c ∈ l, c ≠ '\r' := by
    intro l hl c hc
    simpa using List.all_eq_true.mp hl c hc
  refine ⟨pre, post, hval, fun u a hu hne ha hucr hacr => ?_⟩
  rw [himage u a hu hne ha]
  exact hrep _ (noCr_append (noCr_append (noCr_append (noCr_append (hlit _ (by decide)) hacr)
    (hlit _ (by decide))) hucr) (hlit _ (by decide)))

/-- Witness of C10: the word `cat` selected, the URL `u`, the default description
submitted. -/
theorem formatText_image_witness :
    formatText (fun m v => if m = "请输入图片URL:".toList then some "u".toList else v)
        "image".toList ⟨["cat".toList], ⟨0, 0⟩, ⟨0, 3⟩⟩ =
      (Doc.replaceSelection ⟨["cat".toList], ⟨0, 0⟩, ⟨0, 3⟩⟩ "![cat](u)".toList,
        [Effect.prompt "请输入图片URL:".toList none,
          Effect.prompt "请输入图片描述:".toList (some "cat".toList)]) :=
  (formatText_image (fun m v => if m = "请输入图片URL:".toList then some "u".toList else v)
    ⟨["cat".toList], ⟨0, 0⟩, ⟨0, 3⟩⟩ (by decide)).1 "u".toList "cat".toList
    (by decide) (by decide) (by decide)

/-- Counterexample to C10 as stated: with `cat` selected and the URL `u`, an empty
description submitted at the second prompt gives the empty description, not the selection. -/
theorem formatText_image_counterexample :
    (formatText (fun m _ => if m = "请输入图片URL:".toList then some "u".toList else some [])
        "image".toList ⟨["cat".toList], ⟨0, 0⟩, ⟨0, 3⟩⟩).1.lines = ["![](u)".toList] ∧
      ["![](u)".toList] ≠ ["![cat](u)".toList] := by
  decide

/-- The description prompt cancelled: the text `null` is written as the description. -/
theorem formatText_image_cancelled :
    (formatText (fun m _ => if m = "请输入图片URL:".toList then some "u".toList else none)
        "image".toList ⟨["cat".toList], ⟨0, 0⟩, ⟨0, 3⟩⟩).1.lines = ["![null](u)".toList] := by
  decide

/-! ## The link rule -/

/-- Claim C4.  The link rule returns the anchor with `href` as its `href` and `text` as its
content; the attributes `target="_blank" rel="noopener noreferrer"` stand in it when `href`
begins with the four code units `http`, and nothing stands in their place otherwise; the
`title` attribute stands in it when a title is present (neither `null` nor empty), and
nothing stands in its place otherwise.  The four sample addresses are evaluated. -/
theorem renderer_link_spec (href : JsString) (title : Option JsString) (text : JsString) :
    renderer.link href title text =
        "<a href=\"".toList ++ href ++ "\" ".toList ++
          (if "http".toList <+: href then "target=\"_blank\" rel=\"noopener noreferrer\"".toList
            else []) ++ " ".toList ++
          (if title ≠ none ∧ title ≠ some [] then
            "title=\"".toList ++ title.getD [] ++ "\"".toList else []) ++
          ">".toList ++ text ++ "</a>".toList ∧
      renderer.link "http://x.com".toList none "t".toList =
        "<a href=\"http://x.com\" target=\"_blank\" rel=\"noopener noreferrer\" >t</a>".toList ∧
      renderer.link "/relative".toList none "t".toList = "<a href=\"/relative\"  >t</a>".toList ∧
      renderer.link "//cdn.example.com/x".toList none "t".toList =
        "<a href=\"//cdn.example.com/x\"  >t</a>".toList ∧
      renderer.link "HTTPS://x.com".toList none "t".toList =
        "<a href=\"HTTPS://x.com\"  >t</a>".toList ∧
      renderer.link "/relative".toList (some "T".toList) "t".toList =
        "<a href=\"/relative\"  title=\"T\">t</a>".toList := by
  refine ⟨?_, by decide, by decide, by decide, by decide, by decide⟩
  have htitle : (if truthy title then "title=\"".toList ++ toStr title ++ "\"".toList else []) =
      (if title ≠ none ∧ title ≠ some [] then
        "title=\"".toList ++ title.getD [] ++ "\"".toList else []) := by
    cases title with
    | none => simp [truthy]
    | some t =>
      cases t with
      | nil => simp [truthy]
      | cons a t => simp [truthy, toStr]
  have hpre : startsWith href "http".toList = true ↔ "http".toList <+: href := by
    simp [startsWith]
  simp only [renderer.link, htitle]
  by_cases h : "http".toList <+: href
  · rw [if_pos (hpre.mpr h), if_pos h]
  · rw [if_neg (fun hh => h (hpre.mp hh)), if_neg h]

/-! ## Dropped files -/

/-- Claim C6, as the code has it.  `handleDrop` hands the first dropped file to `readAsText`
exactly when its declared type is `text/markdown` or its name ends with `.md`, `.markdown`
or `.txt`; the call itself never changes the buffer or the current name; and for a file that
fails the test the only effect is one notification, of type `error`. -/
theorem handleDrop_spec (st : MarkdownEditor) (file : File) (rest : List File) :
    (Effect.readAsText file ∈ (handleDrop st (file :: rest)).2 ↔
        (file.type = "text/markdown".toList ∨ ".md".toList <:+ file.name ∨
          ".markdown".toList <:+ file.name ∨ ".txt".toList <:+ file.name)) ∧
      (handleDrop st (file :: rest)).1 = st ∧
      (¬ (file.type = "text/markdown".toList ∨ ".md".toList <:+ file.name ∨
          ".markdown".toList <:+ file.name ∨ ".txt".toList <:+ file.name) →
        handleDrop st (file :: rest) =
          (st, [Effect.showNotification "请拖拽 Markdown 文件".toList "error".toList])) := by
  have hcond : (decide (file.type = "text/markdown".toList) || endsWith file.name ".md".toList ||
      endsWith file.name ".markdown".toList || endsWith file.name ".txt".toList) = true ↔
      (file.type = "text/markdown".toList ∨ ".md".toList <:+ file.name ∨
          ".markdown".toList <:+ file.name ∨ ".txt".toList <:+ file.name) := by
    simp only [endsWith, Bool.or_eq_true, decide_eq_true_eq, List.isSuffixOf_iff_suffix, or_assoc]
  by_cases h : (file.type = "text/markdown".toList ∨ ".md".toList <:+ file.name ∨
          ".markdown".toList <:+ file.name ∨ ".txt".toList <:+ file.name)
  · have hd : handleDrop st (file :: rest) = (st, [Effect.readAsText file]) := by
      simp only [handleDrop]
      rw [if_pos (hcond.mpr h)]
    rw [hd]
    exact ⟨⟨fun _ => h, fun _ => List.mem_singleton.mpr rfl⟩, rfl, fun hn => absurd h hn⟩
  · have hd : handleDrop st (file :: rest) =
        (st, [Effect.showNotification "请拖拽 Markdown 文件".toList "error".toList]) := by
      simp only [handleDrop]
      rw [if_neg (fun hh => h (hcond.mp hh))]
    rw [hd]
    refine ⟨⟨fun hm => ?_, fun hh => absurd hh h⟩, rfl, fun _ => rfl⟩
    simp at hm

/-- Witness of C6: the file `image.png` of type `image/png` dropped on an empty document. -/
theorem handleDrop_spec_witness :
    handleDrop ⟨⟨[[]], ⟨0, 0⟩, ⟨0, 0⟩⟩, none, 0, 0⟩
        [⟨"image.png".toList, "image/png".toList, "data".toList⟩] =
      (⟨⟨[[]], ⟨0, 0⟩, ⟨0, 0⟩⟩, none, 0, 0⟩,
        [Effect.showNotification "请拖拽 Markdown 文件".toList "error".toList]) :=
  (handleDrop_spec ⟨⟨[[]], ⟨0, 0⟩, ⟨0, 0⟩⟩, none, 0, 0⟩
    ⟨"image.png".toList, "image/png".toList, "data".toList⟩ []).2.2 (by decide)

/-- Counterexample to C6 as stated: for the dropped file `image.png` the notification that
is shown has the type `error`, and no notification of type `warning` is shown. -/
theorem handleDrop_counterexample :
    (handleDrop ⟨⟨[[]], ⟨0, 0⟩, ⟨0, 0⟩⟩, none, 0, 0⟩
        [⟨"image.png".toList, "image/png".toList, "data".toList⟩]).2 =
      [Effect.showNotification "请拖拽 Markdown 文件".toList "error".toList] ∧
    (handleDrop ⟨⟨[[]], ⟨0, 0⟩, ⟨0, 0⟩⟩, none, 0, 0⟩
        [⟨"image.png".toList, "image/png".toList, "data".toList⟩]).2.any
      (Effect.isNotification "warning".toList) = false := by
  decide

/-! ## Statistics -/

/-- The count over the pairs of neighbours of `a :: s`: the pairs inside `s`, and the pair of
`a` and the first code unit of `s`. -/
theorem countRuns_cons_zip (a : Char) (s : JsString) :
    ((a :: s).zip s).countP (fun p => isJsSpace p.1 && !isJsSpace p.2) =
      (s.zip (s.drop 1)).countP (fun p => isJsSpace p.1 && !isJsSpace p.2) +
        (match s with
          | [] => 0
          | c :: _ => if isJsSpace a && !isJsSpace c then 1 else 0) := by
  cases s with
  | nil => rfl
  | cons c cs =>
    simp only [List.zip_cons_cons, List.countP_cons, List.drop_one, List.tail_cons]

theorem countRuns_nil : countRuns [] = 0 := rfl

theorem countRuns_cons_space (c : Char) (s : JsString) (hc : isJsSpace c = true) :
    countRuns (c :: s) = countRuns s := by
  simp only [countRuns, List.zip_cons_cons, List.countP_cons, hc]
  rw [countRuns_cons_zip ' ' s, countRuns_cons_zip c s]
  cases s with
  | nil => rfl
  | cons d ds => simp [hc, isJsSpace_blank]

/-- The count of the non-empty pieces of the splitting, in terms of `countRuns`: inside a
word (`cur` not empty) the word being read counts for one and the rest counts as after a
code unit that is no white space. -/
theorem filter_splitSpacesAux (s : JsString) :
    ∀ (inRun : Bool) (cur : JsString), (inRun = true → cur = []) →
      ((splitSpacesAux inRun cur s).filter (fun word => decide (word.length > 0))).length =
        if cur = [] then countRuns s else 1 + (countRuns ('x' :: s) - 1) := by
  have hx : isJsSpace 'x' = false := by decide
  have hxs : ∀ t : JsString, countRuns ('x' :: t) =
      1 + ((('x' :: t).zip t).countP (fun p => isJsSpace p.1 && !isJsSpace p.2)) := by
    intro t
    simp only [countRuns, List.zip_cons_cons, List.countP_cons, isJsSpace_blank, hx]
    simp
    omega
  induction s with
  | nil =>
    intro inRun cur _
    by_cases hcur : cur = []
    · simp [splitSpacesAux, hcur, countRuns_nil]
    · have : 0 < cur.length := List.length_pos.mpr hcur
      simp [splitSpacesAux, hcur, this, hxs]
  | cons c cs ih =>
    intro inRun cur hrun
    by_cases hc : isJsSpace c = true
    · have hzip : (('x' :: c :: cs).zip (c :: cs)).countP
          (fun p => isJsSpace p.1 && !isJsSpace p.2) = countRuns cs := by
        simp only [List.zip_cons_cons, List.countP_cons, hx, hc]
        rw [countRuns, countRuns_cons_zip ' ' cs, countRuns_cons_zip c cs]
        cases cs with
        | nil => rfl
        | cons d ds => simp [hc, isJsSpace_blank]
      cases inRun with
      | true =>
        have hcur := hrun rfl
        subst hcur
        simp only [splitSpacesAux, hc, if_true]
        rw [ih true [] (fun _ => rfl)]
        simp [countRuns_cons_space c cs hc]
      | false =>
        simp only [splitSpacesAux, hc, if_true, Bool.false_eq_true, if_false, List.filter_cons]
        have hrec := ih true [] (fun _ => rfl)
        simp only [if_true] at hrec
        by_cases hcur : cur = []
        · simp [hcur, hrec, countRuns_cons_space c cs hc]
        · have : 0 < cur.length := List.length_pos.mpr hcur
          simp only [hcur, if_false, gt_iff_lt, this, decide_True, if_true, List.length_cons,
            hrec, hxs, hzip]
          omega
    · have hc' : isJsSpace c = false := by simpa using hc
      have hne : cur ++ [c] ≠ [] := by simp
      simp only [splitSpacesAux, hc', Bool.false_eq_true, if_false]
      rw [ih false (cur ++ [c]) (fun h => by cases h), if_neg hne]
      have hzip : (('x' :: c :: cs).zip (c :: cs)).countP
          (fun p => isJsSpace p.1 && !isJsSpace p.2) =
          (('x' :: cs).zip cs).countP (fun p => isJsSpace p.1 && !isJsSpace p.2) := by
        simp only [List.zip_cons_cons, List.countP_cons, hx, hc']
        rw [countRuns_cons_zip c cs, countRuns_cons_zip 'x' cs]
        cases cs with
        | nil => rfl
        | cons d ds => simp [hc', hx]
      have hcount : countRuns (c :: cs) = 1 + (countRuns ('x' :: cs) - 1) := by
        rw [hxs]
        simp only [countRuns, List.zip_cons_cons, List.countP_cons, isJsSpace_blank, hc']
        rw [countRuns_cons_zip c cs, countRuns_cons_zip 'x' cs]
        cases cs with
        | nil => rfl
        | cons d ds =>
          simp [hc', hx]
          omega
      by_cases hcur : cur = []
      · simp only [hcur, if_true]
        exact hcount.symm
      · simp only [hcur, if_false, hxs, hzip]

theorem countRuns_dropWhile (s : JsString) : countRuns (s.dropWhile isJsSpace) = countRuns s := by
  induction s with
  | nil => rfl
  | cons c cs ih =>
    by_cases hc : isJsSpace c = true
    · rw [List.dropWhile_cons_of_pos hc, ih, countRuns_cons_space c cs hc]
    · rw [List.dropWhile_cons_of_neg hc]

/-- White space at the end of a text starts no run. -/
theorem countP_zip_append_spaces (ws : JsString) (hws : ∀ c ∈ ws, isJsSpace c = true) :
    ∀ (s : JsString) (a : Char),
      ((a :: (s ++ ws)).zip (s ++ ws)).countP (fun p => isJsSpace p.1 && !isJsSpace p.2) =
        ((a :: s).zip s).countP (fun p => isJsSpace p.1 && !isJsSpace p.2) := by
  intro s
  induction s with
  | nil =>
    intro a
    simp only [List.nil_append, List.zip_nil_right, List.countP_nil]
    induction ws generalizing a with
    | nil => rfl
    | cons w ws ih =>
      have hw := hws w (List.mem_cons_self _ _)
      simp only [List.zip_cons_cons, List.countP_cons, hw]
      rw [ih (fun c hc => hws c (List.mem_cons_of_mem _ hc)) w]
      simp
  | cons c cs ih =>
    intro a
    simp only [List.cons_append, List.zip_cons_cons, List.countP_cons]
    rw [ih c]

theorem countRuns_trim (s : JsString) : countRuns (trim s) = countRuns s := by
  have hsplit : ∀ t : JsString, t =
      (t.reverse.dropWhile isJsSpace).reverse ++ (t.reverse.takeWhile isJsSpace).reverse := by
    intro t
    rw [← List.reverse_append, List.takeWhile_append_dropWhile, List.reverse_reverse]
  have hws : ∀ t : JsString, ∀ c ∈ (t.reverse.takeWhile isJsSpace).reverse, isJsSpace c = true := by
    intro t c hc
    exact (List.mem_takeWhile_imp (List.mem_reverse.mp hc))
  have hend : ∀ t : JsString, countRuns (t.reverse.dropWhile isJsSpace).reverse = countRuns t := by
    intro t
    conv_rhs => rw [hsplit t]
    exact (countP_zip_append_spaces _ (hws t) _ ' ').symm
  rw [trim, hend, countRuns_dropWhile]

theorem countRuns_eq_zero_iff (s : JsString) : countRuns s = 0 ↔ s.all isJsSpace = true := by
  induction s with
  | nil => simp [countRuns_nil]
  | cons c cs ih =>
    by_cases hc : isJsSpace c = true
    · rw [countRuns_cons_space c cs hc, ih]
      simp [hc]
    · have hc' : isJsSpace c = false := by simpa using hc
      simp [countRuns, List.countP_cons, isJsSpace_blank, hc']

/-- Claim C5.  `updateStats` sets `charCount` to the length of the buffer content and
`wordCount` to the number of non-empty pieces of the trimmed content split at its runs of
white space, which is the number of maximal runs of non-white-space code units of the
content; `wordCount` is `0` exactly when the content is empty or all white space. -/
theorem updateStats_spec (st : MarkdownEditor) :
    (updateStats st).charCount = st.editor.getValue.length ∧
      (updateStats st).wordCount =
        ((splitSpaces (trim st.editor.getValue)).filter (fun w => decide (w ≠ []))).length ∧
      (updateStats st).wordCount = countRuns st.editor.getValue ∧
      ((updateStats st).wordCount = 0 ↔ st.editor.getValue.all isJsSpace = true) ∧
      (updateStats st).editor = st.editor ∧ (updateStats st).currentFile = st.currentFile := by
  have hcount : (updateStats st).wordCount = countRuns st.editor.getValue := by
    simp only [updateStats, splitSpaces]
    rw [filter_splitSpacesAux _ false [] (fun h => by cases h), if_pos rfl, countRuns_trim]
  have hfilter : ∀ l : List JsString, l.filter (fun word => decide (word.length > 0)) =
      l.filter (fun w => decide (w ≠ [])) := by
    intro l
    congr 1
    funext w
    cases w <;> simp
  refine ⟨rfl, ?_, hcount, ?_, rfl, rfl⟩
  · simp only [updateStats, hfilter]
  · rw [hcount, countRuns_eq_zero_iff]

/-- The counts of a sample buffer: seven code units, three words; and of the empty buffer. -/
theorem updateStats_sample :
    (updateStats ⟨⟨[" a".toList, "b c ".toList], ⟨0, 0⟩, ⟨0, 0⟩⟩, none, 0, 0⟩).charCount = 7 ∧
      (updateStats ⟨⟨[" a".toList, "b c ".toList], ⟨0, 0⟩, ⟨0, 0⟩⟩, none, 0, 0⟩).wordCount = 3 ∧
      (updateStats ⟨⟨[[]], ⟨0, 0⟩, ⟨0, 0⟩⟩, none, 5, 5⟩).wordCount = 0 := by
  decide

/-! ## The autosave timer -/

/-- After `scheduleAutoSave` in a state of the invariant exactly the new timeout is live, due
in 2000 ms, and nothing was saved by the call. -/
theorem scheduleAutoSave_pending (s : Timers) (h : TimersInv s) :
    (scheduleAutoSave s).pending = [(s.nextId, s.now + 2000)] ∧
      (scheduleAutoSave s).autoSaveTimer = some s.nextId ∧
      (scheduleAutoSave s).now = s.now ∧ (scheduleAutoSave s).saves = s.saves := by
  rcases h with h | ⟨id, due, hp, ha, _⟩
  · cases hauto : s.autoSaveTimer with
    | none => simp [scheduleAutoSave, clearTimeout, setTimeout, hauto, h]
    | some i => simp [scheduleAutoSave, clearTimeout, setTimeout, hauto, h]
  · simp [scheduleAutoSave, clearTimeout, setTimeout, ha, hp]

theorem scheduleAutoSave_inv (s : Timers) (h : TimersInv s) : TimersInv (scheduleAutoSave s) := by
  obtain ⟨hp, ha, hn, _⟩ := scheduleAutoSave_pending s h
  exact Or.inr ⟨s.nextId, s.now + 2000, hp, ha, by omega⟩

theorem tick_of_nil (s : Timers) (h : s.pending = []) : tick s = { s with now := s.now + 1 } := by
  simp [tick, h]

theorem tick_of_later (s : Timers) (id due : Nat) (h : s.pending = [(id, due)])
    (hdue : s.now + 1 < due) : tick s = { s with now := s.now + 1 } := by
  have h1 : ¬ due ≤ s.now + 1 := by omega
  simp [tick, h, h1]

theorem tick_of_due (s : Timers) (id due : Nat) (h : s.pending = [(id, due)])
    (hdue : due = s.now + 1) :
    tick s = { s with now := s.now + 1, pending := [], saves := s.saves ++ [s.now + 1],
                      saveStatus := "已自动保存".toList } := by
  simp [tick, h, hdue, autoSaveCallback]

theorem tick_inv (s : Timers) (h : TimersInv s) : TimersInv (tick s) := by
  rcases h with h | ⟨id, due, hp, ha, hlt⟩
  · rw [tick_of_nil s h]
    exact Or.inl h
  · by_cases hd : due = s.now + 1
    · rw [tick_of_due s id due hp hd]
      exact Or.inl rfl
    · rw [tick_of_later s id due hp (by omega)]
      exact Or.inr ⟨id, due, hp, ha, by simp only; omega⟩

theorem reachable_inv (s : Timers) (h : Reachable s) : TimersInv s := by
  induction h with
  | init => exact Or.inl rfl
  | change s _ ih => exact scheduleAutoSave_inv s ih
  | tick s _ ih => exact tick_inv s ih

/-- While the one live timeout is not yet due, time passes and nothing else changes. -/
theorem advance_before_due (d : Nat) :
    ∀ (s : Timers) (id due : Nat), s.pending = [(id, due)] → s.now + d < due →
      advance d s = { s with now := s.now + d } := by
  induction d with
  | zero =>
    intro s id due _ _
    rfl
  | succ d ih =>
    intro s id due hp hlt
    simp only [advance]
    rw [tick_of_later s id due hp (by omega)]
    rw [ih { s with now := s.now + 1 } id due hp (by simp only; omega)]
    simp only [Timers.mk.injEq, and_true, true_and]
    omega

/-- With no live timeout, time passes and nothing else changes. -/
theorem advance_of_nil (d : Nat) :
    ∀ (s : Timers), s.pending = [] → advance d s = { s with now := s.now + d } := by
  induction d with
  | zero =>
    intro s _
    rfl
  | succ d ih =>
    intro s hp
    simp only [advance]
    rw [tick_of_nil s hp, ih { s with now := s.now + 1 } hp]
    simp only [Timers.mk.injEq, and_true, true_and]
    omega

/-- Once the one live timeout is reached, its callback has run once, at its due time. -/
theorem advance_past_due (d : Nat) (s : Timers) (id due : Nat) (hp : s.pending = [(id, due)])
    (hnow : s.now < due) (hdue : due ≤ s.now + d) :
    advance d s = { s with now := s.now + d, pending := [], saves := s.saves ++ [due],
                           saveStatus := "已自动保存".toList } := by
  obtain ⟨k, rfl⟩ : ∃ k, due = s.now + k + 1 := ⟨due - s.now - 1, by omega⟩
  obtain ⟨e, rfl⟩ : ∃ e, d = k + 1 + e := ⟨d - (k + 1), by omega⟩
  have hsplit : ∀ (a b : Nat) (t : Timers), advance (a + b) t = advance b (advance a t) := by
    intro a
    induction a with
    | zero =>
      intro b t
      simp [advance]
    | succ a ih =>
      intro b t
      rw [show a + 1 + b = (a + b) + 1 by omega]
      simp only [advance]
      exact ih b (tick t)
  rw [hsplit (k + 1) e, hsplit k 1]
  rw [advance_before_due k s id (s.now + k + 1) hp (by omega)]
  simp only [advance]
  rw [tick_of_due { s with now := s.now + k } id (s.now + k + 1) hp rfl]
  rw [advance_of_nil e _ rfl]
  simp only [Timers.mk.injEq, and_true, true_and]
  omega

/-- After a run of change events whose gaps are all below 2000 ms: the clock stands at the
time of the last event, exactly one timeout is live, due 2000 ms later, and nothing was
saved on the way. -/
theorem changeEvents_state (gaps : List Nat) (hgaps : ∀ g ∈ gaps, g < 2000) :
    ∀ (acc : Timers), (∃ id, acc.pending = [(id, acc.now + 2000)] ∧ acc.autoSaveTimer = some id) →
      ∃ id, (gaps.foldl (fun acc g => scheduleAutoSave (advance g acc)) acc).pending =
            [(id, acc.now + gaps.sum + 2000)] ∧
        (gaps.foldl (fun acc g => scheduleAutoSave (advance g acc)) acc).now =
            acc.now + gaps.sum ∧
        (gaps.foldl (fun acc g => scheduleAutoSave (advance g acc)) acc).saves = acc.saves := by
  induction gaps with
  | nil =>
    intro acc ⟨id, hp, _⟩
    exact ⟨id, by simpa using hp, by simp, rfl⟩
  | cons g gs ih =>
    intro acc ⟨id, hp, ha⟩
    have hg : g < 2000 := hgaps g (List.mem_cons_self _ _)
    have hadv := advance_before_due g acc id (acc.now + 2000) hp (by omega)
    have hinv : TimersInv (advance g acc) := by
      rw [hadv]
      exact Or.inr ⟨id, acc.now + 2000, hp, ha, by simp only; omega⟩
    obtain ⟨hp', ha', hn', hs'⟩ := scheduleAutoSave_pending (advance g acc) hinv
    have hnow : (advance g acc).now = acc.now + g := by rw [hadv]
    have hsaves : (advance g acc).saves = acc.saves := by rw [hadv]
    obtain ⟨id', h1, h2, h3⟩ := ih (fun x hx => hgaps x (List.mem_cons_of_mem _ hx))
      (scheduleAutoSave (advance g acc)) ⟨_, by rw [hp', hn'], ha'⟩
    refine ⟨id', ?_, ?_, ?_⟩
    · rw [List.foldl_cons, h1, hn', hnow, List.sum_cons]
      simp only [List.cons.injEq, Prod.mk.injEq, true_and, and_true]
      omega
    · rw [List.foldl_cons, h2, hn', hnow, List.sum_cons]
      omega
    · rw [List.foldl_cons, h3, hs', hsaves]

/-- Claim C7.  From a reachable state `s`, a run of change events (one now, then one after
each gap) whose gaps are all below 2000 ms saves nothing while it lasts and nothing in the
2000 ms after its last event; once 2000 ms or more have passed, exactly one call of
`saveToStorage` has been added, at the time of the last event plus 2000 ms, and no timeout
is left.  In every reachable state at most one autosave timeout is live. -/
theorem autosave_debounce (s : Timers) (hs : Reachable s) (gaps : List Nat)
    (hgaps : ∀ g ∈ gaps, g < 2000) (d : Nat) (hd : 2000 ≤ d) :
    (changeEvents s gaps).now = s.now + gaps.sum ∧
      (changeEvents s gaps).saves = s.saves ∧
      (∀ e, e < 2000 → (advance e (changeEvents s gaps)).saves = s.saves) ∧
      (advance d (changeEvents s gaps)).saves = s.saves ++ [s.now + gaps.sum + 2000] ∧
      (advance d (changeEvents s gaps)).pending = [] ∧
      (∀ r, Reachable r → r.pending.length ≤ 1) := by
  obtain ⟨hp0, ha0, hn0, hs0⟩ := scheduleAutoSave_pending s (reachable_inv s hs)
  obtain ⟨id, hp, hn, hsv⟩ := changeEvents_state gaps hgaps (scheduleAutoSave s)
    ⟨_, by rw [hp0, hn0], ha0⟩
  rw [hn0] at hp hn
  rw [hs0] at hsv
  have hp' : (changeEvents s gaps).pending = [(id, s.now + gaps.sum + 2000)] := hp
  have hn' : (changeEvents s gaps).now = s.now + gaps.sum := hn
  have hsv' : (changeEvents s gaps).saves = s.saves := hsv
  refine ⟨hn', hsv', ?_, ?_, ?_, ?_⟩
  · intro e he
    rw [advance_before_due e _ id _ hp' (by rw [hn']; omega)]
    exact hsv'
  · rw [advance_past_due d _ id _ hp' (by rw [hn']; omega) (by rw [hn']; omega), hsv']
  · rw [advance_past_due d _ id _ hp' (by rw [hn']; omega) (by rw [hn']; omega)]
  · intro r hr
    rcases reachable_inv r hr with h | ⟨i, due, h, _, _⟩ <;> simp [h]

/-- Witness of C7: three change events 500 ms apart on the freshly loaded page, at 0, 500
and 1000 ms; after 2000 more milliseconds there is the one save, at 3000 ms. -/
theorem autosave_debounce_witness :
    (advance 2000 (changeEvents Timers.init [500, 500])).saves = [3000] :=
  (autosave_debounce Timers.init Reachable.init [500, 500] (by decide) 2000 (le_refl _)).2.2.2.1
/-! ## Code fences: the prompt left empty or cancelled -/

/-- Claim C11, as the code has it.  When the language prompt is cancelled or left empty and
the cursor `(L, c)` exists in the document, `insertCodeBlock` is not abandoned: it inserts
the untagged fence text (three backticks, two line feeds, three backticks) at the cursor, so
that two lines are added and the content, some `pre` followed by some `post`, becomes `pre`,
the fence text, `post`; it leaves the cursor at line `L + 1`, column `0`; and it does
nothing else than the one prompt (no notification). -/
theorem insertCodeBlock_untagged (prompt : Prompt) (ed : Doc)
    (hvalid : validPos ed.lines ed.getCursor = true)
    (hanswer : prompt "请输入编程语言 (例如: javascript, python, html):".toList
        (some "javascript".toList) = none ∨
      prompt "请输入编程语言 (例如: javascript, python, html):".toList
        (some "javascript".toList) = some []) :
    (insertCodeBlock prompt ed).1 =
        (ed.replaceRange "```\n\n```".toList ed.getCursor none).setCursor
          ⟨ed.getCursor.line + 1, 0⟩ ∧
      (insertCodeBlock prompt ed).1.lines =
        ed.lines.take ed.getCursor.line ++
          [(lineText ed.lines ed.getCursor.line).take ed.getCursor.ch ++ "```".toList, [],
            "```".toList ++ (lineText ed.lines ed.getCursor.line).drop ed.getCursor.ch] ++
          ed.lines.drop (ed.getCursor.line + 1) ∧
      (insertCodeBlock prompt ed).1.lines.length = ed.lines.length + 2 ∧
      (insertCodeBlock prompt ed).1.head = ⟨ed.getCursor.line + 1, 0⟩ ∧
      (insertCodeBlock prompt ed).1.anchor = ⟨ed.getCursor.line + 1, 0⟩ ∧
      (insertCodeBlock prompt ed).2 =
        [Effect.prompt "请输入编程语言 (例如: javascript, python, html):".toList
          (some "javascript".toList)] ∧
      (∃ pre post, ed.getValue = pre ++ post ∧
        (insertCodeBlock prompt ed).1.getValue = pre ++ "```\n\n```".toList ++ post) := by
  have h1 : (insertCodeBlock prompt ed).1 =
      (ed.replaceRange ("```".toList ++ [] ++ "\n\n```".toList) ed.getCursor none).setCursor
        ⟨ed.getCursor.line + 1, 0⟩ := by
    rcases hanswer with h | h
    · simp only [insertCodeBlock, h, truthy, Bool.false_eq_true, if_false]
      rfl
    · simp only [insertCodeBlock, codeBlock_eq _ [] h]
  have hlt : ed.getCursor.line < ed.lines.length := by
    simp only [validPos, Bool.and_eq_true, decide_eq_true_eq] at hvalid
    exact hvalid.1
  obtain ⟨hlines, hhead, hanchor, _, hcontent⟩ := fence_layout ed [] hvalid (by simp)
  rw [h1]
  refine ⟨rfl, ?_, ?_, hhead, hanchor, rfl, hcontent⟩
  · rw [hlines]
    simp
  · rw [hlines]
    simp only [List.length_append, List.length_take, List.length_drop, List.length_cons,
      List.length_nil]
    omega

/-- Witness of C11: the prompt cancelled with the cursor at the end of the one line `abc`. -/
theorem insertCodeBlock_untagged_witness :
    (insertCodeBlock (fun _ _ => none) ⟨["abc".toList], ⟨0, 3⟩, ⟨0, 3⟩⟩).1.lines =
        ["abc```".toList, [], "```".toList] ∧
      (insertCodeBlock (fun _ _ => none) ⟨["abc".toList], ⟨0, 3⟩, ⟨0, 3⟩⟩).1.head = ⟨1, 0⟩ :=
  have h := insertCodeBlock_untagged (fun _ _ => none) ⟨["abc".toList], ⟨0, 3⟩, ⟨0, 3⟩⟩
    (by decide) (Or.inl rfl)
  ⟨h.2.1, h.2.2.2.1⟩

/-- Counterexample to C11 as stated: with the prompt cancelled, and with the prompt left
empty, the one line `abc` with the cursor at its end becomes three lines and the cursor
moves; the document is not what it was before the call. -/
theorem insertCodeBlock_abandoned_counterexample :
    (insertCodeBlock (fun _ _ => none) ⟨["abc".toList], ⟨0, 3⟩, ⟨0, 3⟩⟩).1 =
        ⟨["abc```".toList, [], "```".toList], ⟨1, 0⟩, ⟨1, 0⟩⟩ ∧
      (insertCodeBlock (fun _ _ => some []) ⟨["abc".toList], ⟨0, 3⟩, ⟨0, 3⟩⟩).1 =
        ⟨["abc```".toList, [], "```".toList], ⟨1, 0⟩, ⟨1, 0⟩⟩ ∧
      (insertCodeBlock (fun _ _ => none) ⟨["abc".toList], ⟨0, 3⟩, ⟨0, 3⟩⟩).1 ≠
        ⟨["abc".toList], ⟨0, 3⟩, ⟨0, 3⟩⟩ := by
  decide

/-! ## Files chosen through the picker -/

/-- Every file chosen through the picker is read, and when the read ends the buffer holds the
lines of its text and the current name is its name; no test of type or name is made. -/
theorem openThroughPicker_any (st : MarkdownEditor) (file : File) (rest : List File) :
    handleFileSelect st (file :: rest) = (st, [Effect.readAsText file]) ∧
      (openThroughPicker st (file :: rest)).1.editor.lines = splitLines file.text ∧
      (openThroughPicker st (file :: rest)).1.currentFile = some file.name ∧
      ((∀ c ∈ file.text, c ≠ '\r') →
        (openThroughPicker st (file :: rest)).1.editor.getValue = file.text) := by
  refine ⟨rfl, rfl, rfl, fun h => ?_⟩
  exact joinLines_splitLines file.text h

/-- Claim C12 at the failing input: the file `image.png` of type `image/png`, chosen through
the picker on an empty unnamed document, is read, and when the read ends the buffer content
is the text of the file and the current name is `image.png`; the same file dropped is
rejected by `handleDrop`. -/
theorem handleFileSelect_png_opened :
    handleFileSelect ⟨⟨[[]], ⟨0, 0⟩, ⟨0, 0⟩⟩, none, 0, 0⟩
        [⟨"image.png".toList, "image/png".toList, "data".toList⟩] =
      (⟨⟨[[]], ⟨0, 0⟩, ⟨0, 0⟩⟩, none, 0, 0⟩,
        [Effect.readAsText ⟨"image.png".toList, "image/png".toList, "data".toList⟩]) ∧
    (openThroughPicker ⟨⟨[[]], ⟨0, 0⟩, ⟨0, 0⟩⟩, none, 0, 0⟩
        [⟨"image.png".toList, "image/png".toList, "data".toList⟩]).1.editor.getValue =
      "data".toList ∧
    (openThroughPicker ⟨⟨[[]], ⟨0, 0⟩, ⟨0, 0⟩⟩, none, 0, 0⟩
        [⟨"image.png".toList, "image/png".toList, "data".toList⟩]).1.currentFile =
      some "image.png".toList ∧
    Doc.getValue ⟨[[]], ⟨0, 0⟩, ⟨0, 0⟩⟩ = [] ∧
    (handleDrop ⟨⟨[[]], ⟨0, 0⟩, ⟨0, 0⟩⟩, none, 0, 0⟩
        [⟨"image.png".toList, "image/png".toList, "data".toList⟩]).2 =
      [Effect.showNotification "请拖拽 Markdown 文件".toList "error".toList] := by
  decide
/-! ## The preview -/

/-- The trimmed text is empty exactly when the text is empty or all white space. -/
theorem trim_eq_nil_iff (s : JsString) : trim s = [] ↔ s.all isJsSpace = true := by
  have hdrop : s.dropWhile isJsSpace = [] ↔ s.all isJsSpace = true := by
    simp [List.dropWhile_eq_nil_iff]
  constructor
  · intro h
    have h1 : ∀ x ∈ s.dropWhile isJsSpace, isJsSpace x = true := by
      simpa [trim, List.dropWhile_eq_nil_iff] using h
    apply hdrop.mp
    by_contra hne
    have hhead := List.head_dropWhile_not isJsSpace s hne
    have := h1 _ (List.head_mem hne)
    simp [hhead] at this
  · intro h
    have h1 : s.dropWhile isJsSpace = [] := hdrop.mpr h
    simp [trim, h1]

/-- Claim C13.  With the transformer `parse` and the reading `html` of the text assigned to
`innerHTML` taken as functions: the trimmed content is empty exactly when the content is
empty or all white space; then `updatePreview` sets the snapshot to the reading of the one
fixed placeholder text and hands nothing to the transformer; for every other content the
snapshot is `addCopyButtons` of the reading of the transformer's output for that content,
and the transformer is called once, on the content.  Two pages with the same content get
the same snapshot whatever their snapshots were before; the text widget is not changed. -/
theorem updatePreview_spec (parse : JsString → JsString) (html : JsString → Dom)
    (inScope : Bool) (p : Page) :
    (trim p.editor.getValue = [] ↔ p.editor.getValue.all isJsSpace = true) ∧
      (trim p.editor.getValue = [] →
        (updatePreview parse html inScope p).preview = html placeholderHtml ∧
          (updatePreview parse html inScope p).parsed = p.parsed) ∧
      (trim p.editor.getValue ≠ [] →
        (updatePreview parse html inScope p).preview =
            addCopyButtons inScope (html (parse p.editor.getValue)) ∧
          (updatePreview parse html inScope p).parsed = p.parsed ++ [p.editor.getValue]) ∧
      (∀ q : Page, q.editor.getValue = p.editor.getValue →
        (updatePreview parse html inScope q).preview =
          (updatePreview parse html inScope p).preview) ∧
      (updatePreview parse html inScope p).editor = p.editor := by
  refine ⟨trim_eq_nil_iff _, fun h => ?_, fun h => ?_, fun q hq => ?_, ?_⟩
  · simp only [updatePreview, h, if_true, and_self]
  · simp only [updatePreview, h, if_false, and_self]
  · by_cases h : trim p.editor.getValue = []
    · simp only [updatePreview, hq, h, if_true]
    · simp only [updatePreview, hq, h, if_false]
  · by_cases h : trim p.editor.getValue = []
    · simp only [updatePreview, h, if_true]
    · simp only [updatePreview, h, if_false]

/-- Witness of C13: a buffer of two blank lines, over a previous snapshot `old`, with the
reading of a text as one text node. -/
theorem updatePreview_spec_witness :
    (updatePreview (fun s => s) (fun s => Dom.text s Dom.nil) true
        ⟨⟨["  ".toList, []], ⟨0, 0⟩, ⟨0, 0⟩⟩, Dom.text "old".toList Dom.nil, []⟩).preview =
      Dom.text placeholderHtml Dom.nil ∧
    (updatePreview (fun s => s) (fun s => Dom.text s Dom.nil) true
        ⟨⟨["  ".toList, []], ⟨0, 0⟩, ⟨0, 0⟩⟩, Dom.text "old".toList Dom.nil, []⟩).parsed = [] :=
  (updatePreview_spec (fun s => s) (fun s => Dom.text s Dom.nil) true
    ⟨⟨["  ".toList, []], ⟨0, 0⟩, ⟨0, 0⟩⟩, Dom.text "old".toList Dom.nil, []⟩).2.1 (by decide)

/-- A sample of the enhancement: a `pre` below the class `preview-content` gets the button
after its `code`, and a second pass adds nothing. -/
theorem addCopyButtons_sample :
    addCopyButtons true
        (Dom.element "pre".toList [] []
          (Dom.element "code".toList [] [] (Dom.text "x".toList Dom.nil) Dom.nil) Dom.nil) =
      Dom.element "pre".toList [] "relative".toList
        (Dom.element "code".toList [] [] (Dom.text "x".toList Dom.nil) copyBtn) Dom.nil ∧
    addCopyButtons true (addCopyButtons true
        (Dom.element "pre".toList [] []
          (Dom.element "code".toList [] [] (Dom.text "x".toList Dom.nil) Dom.nil) Dom.nil)) =
      addCopyButtons true
        (Dom.element "pre".toList [] []
          (Dom.element "code".toList [] [] (Dom.text "x".toList Dom.nil) Dom.nil) Dom.nil) := by
  decide

end MarkDownEdit
